import Mathlib

/-!
Verification of the state-vector simulation and analysis engine of the
Quantum_Simulator repository.

The amplitude type, gate matrices, gate application, circuit stepping,
density matrix, partial trace and expectation-value computations are
shallowly embedded from the JavaScript source.  Amplitude components are
modelled as elements of a commutative ring `F` (instantiated at `ℝ` for the
matrices whose entries involve `Math.sqrt`/`Math.cos`, and at `ℤ`/`ℚ` for
concrete evaluations).  JavaScript arrays are modelled as Lean lists, with
out-of-range reads made explicit; in-place accumulation loops are modelled
as folds over `List.range`, mirroring the iteration order of the source.
-/

namespace QuantumSim

/-- Complex amplitude as stored by the simulator: a record with real and
imaginary components (the `{ re, im }` objects of the source). -/
structure Cplx (F : Type) where
  re : F
  im : F
deriving DecidableEq, Repr

variable {F : Type} [CommRing F]

/-- Source `complexAdd`: componentwise addition. -/
def complexAdd (a b : Cplx F) : Cplx F :=
  ⟨a.re + b.re, a.im + b.im⟩

/-- Source `complexMultiply`: (re·re − im·im, re·im + im·re). -/
def complexMultiply (a b : Cplx F) : Cplx F :=
  ⟨a.re * b.re - a.im * b.im, a.re * b.im + a.im * b.re⟩

instance : Zero (Cplx F) := ⟨⟨0, 0⟩⟩

instance : Add (Cplx F) := ⟨complexAdd⟩

instance : AddCommMonoid (Cplx F) where
  add_assoc a b c := by
    obtain ⟨ar, ai⟩ := a
    obtain ⟨br, bi⟩ := b
    obtain ⟨cr, ci⟩ := c
    show complexAdd (complexAdd ⟨ar, ai⟩ ⟨br, bi⟩) ⟨cr, ci⟩
      = complexAdd ⟨ar, ai⟩ (complexAdd ⟨br, bi⟩ ⟨cr, ci⟩)
    simp [complexAdd, add_assoc]
  zero_add a := by
    obtain ⟨ar, ai⟩ := a
    show complexAdd ⟨0, 0⟩ ⟨ar, ai⟩ = ⟨ar, ai⟩
    simp [complexAdd]
  add_zero a := by
    obtain ⟨ar, ai⟩ := a
    show complexAdd ⟨ar, ai⟩ ⟨0, 0⟩ = ⟨ar, ai⟩
    simp [complexAdd]
  add_comm a b := by
    obtain ⟨ar, ai⟩ := a
    obtain ⟨br, bi⟩ := b
    show complexAdd ⟨ar, ai⟩ ⟨br, bi⟩ = complexAdd ⟨br, bi⟩ ⟨ar, ai⟩
    simp [complexAdd]
    constructor <;> ring
  nsmul := nsmulRec

/-- A fixed 2×2 gate matrix of complex entries (`gateMatrix[r][c]` in the
source, with `mrc` standing for row `r`, column `c`). -/
structure Matrix2 (F : Type) where
  m00 : Cplx F
  m01 : Cplx F
  m10 : Cplx F
  m11 : Cplx F
deriving DecidableEq, Repr

/-- Source `xMatrix`: [[0,1],[1,0]]. -/
def xMatrix : Matrix2 F := ⟨⟨0, 0⟩, ⟨1, 0⟩, ⟨1, 0⟩, ⟨0, 0⟩⟩

/-- Source `yMatrix`: [[0,−i],[i,0]]. -/
def yMatrix : Matrix2 F := ⟨⟨0, 0⟩, ⟨0, -1⟩, ⟨0, 1⟩, ⟨0, 0⟩⟩

/-- Source `zMatrix`: [[1,0],[0,−1]]. -/
def zMatrix : Matrix2 F := ⟨⟨1, 0⟩, ⟨0, 0⟩, ⟨0, 0⟩, ⟨-1, 0⟩⟩

/-- Source `sMatrix`: [[1,0],[0,i]]. -/
def sMatrix : Matrix2 F := ⟨⟨1, 0⟩, ⟨0, 0⟩, ⟨0, 0⟩, ⟨0, 1⟩⟩

/-- Source `hadamardMatrix`: all entries ±1/√2 (real). -/
noncomputable def hadamardMatrix : Matrix2 ℝ :=
  ⟨⟨1 / Real.sqrt 2, 0⟩, ⟨1 / Real.sqrt 2, 0⟩,
   ⟨1 / Real.sqrt 2, 0⟩, ⟨-1 / Real.sqrt 2, 0⟩⟩

/-- Source `tMatrix`: [[1,0],[0, cos(π/4)+i·sin(π/4)]]. -/
noncomputable def tMatrix : Matrix2 ℝ :=
  ⟨⟨1, 0⟩, ⟨0, 0⟩, ⟨0, 0⟩, ⟨Real.cos (Real.pi / 4), Real.sin (Real.pi / 4)⟩⟩

/-- One iteration of the main loop of `applySingleQubitGate` for basis index
`i`: depending on the value of the target qubit in `i`, it adds the two
matrix-entry multiples of the *old* amplitude `state i` into the fresh
`newState` accumulator at positions `i` and `i XOR (1 << qubit)`. -/
def gateStep (gateMatrix : Matrix2 F) (state : ℕ → Cplx F) (qubit : ℕ)
    (newState : ℕ → Cplx F) (i : ℕ) : ℕ → Cplx F :=
  if (i >>> qubit) &&& 1 = 0 then
    fun j =>
      if j = i then complexAdd (newState i) (complexMultiply gateMatrix.m00 (state i))
      else if j = i ^^^ (1 <<< qubit) then
        complexAdd (newState (i ^^^ (1 <<< qubit))) (complexMultiply gateMatrix.m01 (state i))
      else newState j
  else
    fun j =>
      if j = i ^^^ (1 <<< qubit) then
        complexAdd (newState (i ^^^ (1 <<< qubit))) (complexMultiply gateMatrix.m10 (state i))
      else if j = i then complexAdd (newState i) (complexMultiply gateMatrix.m11 (state i))
      else newState j

/-- Source `applySingleQubitGate`: allocates a zero vector of length
`2 ^ numQubits`, runs the accumulation loop over every basis index, and the
final copy-back loop replaces the first `2 ^ numQubits` entries of the state
array by the accumulated values. -/
def applySingleQubitGate (state : List (Cplx F)) (gateMatrix : Matrix2 F)
    (qubit numQubits : ℕ) : List (Cplx F) :=
  let size := 2 ^ numQubits
  let oldState : ℕ → Cplx F := fun i => state.getD i ⟨0, 0⟩
  let newState :=
    (List.range size).foldl (gateStep gateMatrix oldState qubit) (fun _ => ⟨0, 0⟩)
  (List.range size).map newState

/-- Net contribution of loop iteration `i` of `applySingleQubitGate` to
accumulator position `j`. -/
def contrib (gateMatrix : Matrix2 F) (state : ℕ → Cplx F) (qubit i j : ℕ) : Cplx F :=
  if (i >>> qubit) &&& 1 = 0 then
    if j = i then complexMultiply gateMatrix.m00 (state i)
    else if j = i ^^^ (1 <<< qubit) then complexMultiply gateMatrix.m01 (state i)
    else 0
  else
    if j = i ^^^ (1 <<< qubit) then complexMultiply gateMatrix.m10 (state i)
    else if j = i then complexMultiply gateMatrix.m11 (state i)
    else 0

/-- Per-qubit initial basis assignment: the `\x7b value, phase \x7d` objects fed
to `createInitialState`; only `value` is read by the engine. -/
structure QubitInit where
  value : String
deriving DecidableEq, Repr

/-- The `basisStateIndex` accumulation loop of `createInitialState`: OR in
`1 << i` for every qubit `i` whose initial value is the string "1".  Reading
entry `i` of a too-short `initialStates` array yields `undefined` in
JavaScript and the subsequent `.value` access throws; the thrown error is
modelled by `none`. -/
def basisStateIndex (numQubits : ℕ) (initialStates : List QubitInit) : Option ℕ :=
  (List.range numQubits).foldlM
    (fun acc i =>
      match initialStates[i]? with
      | none => none
      | some st => some (if st.value = "1" then acc ||| (1 <<< i) else acc))
    0

/-- Source `createInitialState`: a `2 ^ numQubits` all-zero vector with
amplitude 1 at the computed basis index. -/
def createInitialState (numQubits : ℕ) (initialStates : List QubitInit) :
    Option (List (Cplx F)) :=
  (basisStateIndex numQubits initialStates).map fun basisIndex =>
    (List.range (2 ^ numQubits)).map fun i =>
      if i = basisIndex then ⟨1, 0⟩ else ⟨0, 0⟩

/-- Squared magnitude of an amplitude: the `re*re + im*im` probability
expression of the source. -/
def normSq (c : Cplx F) : F := c.re * c.re + c.im * c.im

/-- Sum of squared amplitude magnitudes over a state vector. -/
def sumNormSq (st : List (Cplx F)) : F :=
  ∑ i ∈ Finset.range st.length, normSq (st.getD i ⟨0, 0⟩)

/-- The six single-qubit gate identifiers executed by the engine. -/
inductive GateId
  | h
  | x
  | y
  | z
  | s
  | t
deriving DecidableEq, Repr

/-- The fixed matrix the evaluator dispatches to for each executed gate id. -/
noncomputable def gateMatrixOf : GateId → Matrix2 ℝ
  | .h => hadamardMatrix
  | .x => xMatrix
  | .y => yMatrix
  | .z => zMatrix
  | .s => sMatrix
  | .t => tMatrix

/-- Sequential application of supported single-qubit gates; each list entry is
a (gate id, target qubit) pair. -/
noncomputable def runGates (init : List (Cplx ℝ)) (gs : List (GateId × ℕ)) (n : ℕ) :
    List (Cplx ℝ) :=
  gs.foldl (fun st g => applySingleQubitGate st (gateMatrixOf g.1) g.2 n) init

/-- Complex conjugate (negated imaginary part), used implicitly by the source
wherever ⟨ψ| appears. -/
def conjC (c : Cplx F) : Cplx F := ⟨c.re, -c.im⟩

/-- Source `calculateDensityMatrix`: ρ[i][j] has real part
ψ[i].re·ψ[j].re + ψ[i].im·ψ[j].im and imaginary part
ψ[i].im·ψ[j].re − ψ[i].re·ψ[j].im. -/
def calculateDensityMatrix (stateVector : List (Cplx F)) : List (List (Cplx F)) :=
  (List.range stateVector.length).map fun i =>
    (List.range stateVector.length).map fun j =>
      (⟨(stateVector.getD i ⟨0, 0⟩).re * (stateVector.getD j ⟨0, 0⟩).re
          + (stateVector.getD i ⟨0, 0⟩).im * (stateVector.getD j ⟨0, 0⟩).im,
        (stateVector.getD i ⟨0, 0⟩).im * (stateVector.getD j ⟨0, 0⟩).re
          - (stateVector.getD i ⟨0, 0⟩).re * (stateVector.getD j ⟨0, 0⟩).im⟩ : Cplx F)

/-- Trace of a square matrix stored as nested lists. -/
def matrixTrace (m : List (List (Cplx F))) : Cplx F :=
  ∑ i ∈ Finset.range m.length, (m.getD i []).getD i ⟨0, 0⟩

/-- Source `calculateExpectationValues`: for each qubit, the loop accumulates
the probability |ψ[i]|² with positive sign when the qubit's bit of `i` is 0
and negative sign otherwise, returning one `(qubit, z)` record per qubit. -/
def calculateExpectationValues (stateVector : List (Cplx F)) (numQubits : ℕ) :
    List (ℕ × F) :=
  (List.range numQubits).map fun qubit =>
    (qubit,
      ∑ i ∈ Finset.range stateVector.length,
        (if (i >>> qubit) &&& 1 = 0 then normSq (stateVector.getD i ⟨0, 0⟩)
         else -(normSq (stateVector.getD i ⟨0, 0⟩))))

/-- Little-endian interpretation of a bit list, used to describe the packed
reduced index produced by `mapToReducedIndex`. -/
def bitsToNat : List Bool → ℕ
  | [] => 0
  | b :: bs => (if b then 1 else 0) + 2 * bitsToNat bs

/-- The `mapToReducedIndex` helper of `calculatePartialTrace`: walk qubits
0..numQubits−1 skipping traced-out ones, and pack the surviving bits of
`fullIndex` into consecutive bit positions of the reduced index. -/
def mapToReducedIndex (numQubits : ℕ) (traceOutQubits : List ℕ) (fullIndex : ℕ) : ℕ :=
  ((List.range numQubits).foldl
    (fun st qubit =>
      if traceOutQubits.contains qubit then st
      else
        ((if fullIndex &&& (1 <<< qubit) ≠ 0 then st.1 ||| (1 <<< st.2) else st.1),
          st.2 + 1))
    (0, 0)).1

/-- The `shouldInclude` test of `calculatePartialTrace`: a pair (i, j)
contributes only when every traced-out qubit has the same bit value in both
indices. -/
def shouldInclude (traceOutQubits : List ℕ) (i j : ℕ) : Bool :=
  traceOutQubits.all fun qubit => (i >>> qubit) &&& 1 == (j >>> qubit) &&& 1

/-- One iteration of the double accumulation loop of `calculatePartialTrace`
for the full-index pair (i, j): when the pair passes `shouldInclude`, the
matrix entry ρ[i][j] is added (componentwise) to the reduced cell at the
mapped coordinates. -/
def partialTraceStep (densityMatrix : List (List (Cplx F))) (numQubits : ℕ)
    (traceOutQubits : List ℕ) (i j : ℕ) (reduced : ℕ → ℕ → Cplx F) :
    ℕ → ℕ → Cplx F :=
  if shouldInclude traceOutQubits i j = true then
    fun r c =>
      if r = mapToReducedIndex numQubits traceOutQubits i
          ∧ c = mapToReducedIndex numQubits traceOutQubits j then
        complexAdd (reduced r c) ((densityMatrix.getD i []).getD j ⟨0, 0⟩)
      else reduced r c
  else reduced

/-- Source `calculatePartialTrace`: a zero-initialized reduced matrix of
dimension `2 ^ (numQubits − traceOutQubits.length)` accumulated over all pairs
of full indices. -/
def calculatePartialTrace (densityMatrix : List (List (Cplx F))) (numQubits : ℕ)
    (traceOutQubits : List ℕ) : List (List (Cplx F)) :=
  let totalDim := densityMatrix.length
  let remainingQubits := numQubits - traceOutQubits.length
  let reducedDim := 2 ^ remainingQubits
  let reduced :=
    (List.range totalDim).foldl
      (fun acc i =>
        (List.range totalDim).foldl
          (fun acc j => partialTraceStep densityMatrix numQubits traceOutQubits i j acc)
          acc)
      (fun _ _ => ⟨0, 0⟩)
  (List.range reducedDim).map fun r => (List.range reducedDim).map fun c => reduced r c

/-- Net contribution of loop iteration (i, j) of `calculatePartialTrace` to
reduced cell (r, c). -/
def ptContrib (densityMatrix : List (List (Cplx F))) (numQubits : ℕ)
    (traceOutQubits : List ℕ) (i j r c : ℕ) : Cplx F :=
  if shouldInclude traceOutQubits i j = true
      ∧ r = mapToReducedIndex numQubits traceOutQubits i
      ∧ c = mapToReducedIndex numQubits traceOutQubits j then
    (densityMatrix.getD i []).getD j ⟨0, 0⟩
  else 0

/-- Concrete two-qubit pure density matrix |00⟩⟨00| used as a witness input. -/
noncomputable def c7WitnessMatrix : List (List (Cplx ℝ)) :=
  [[⟨1, 0⟩, ⟨0, 0⟩, ⟨0, 0⟩, ⟨0, 0⟩],
   [⟨0, 0⟩, ⟨0, 0⟩, ⟨0, 0⟩, ⟨0, 0⟩],
   [⟨0, 0⟩, ⟨0, 0⟩, ⟨0, 0⟩, ⟨0, 0⟩],
   [⟨0, 0⟩, ⟨0, 0⟩, ⟨0, 0⟩, ⟨0, 0⟩]]

/-- A gate object from the palette: identifier, display name, and the
control/target role flags carried by multi-qubit gate placements. -/
structure Gate where
  id : String
  name : String
  control : Bool
  target : Bool
deriving DecidableEq, Repr

/-- A circuit cell: either empty or holding one gate placement. -/
structure Cell where
  gate : Option Gate
deriving DecidableEq, Repr

/-- One recorded simulation step: index, state snapshot, description. -/
structure SimulationStep where
  step : ℕ
  state : List (Cplx ℝ)
  description : String

/-- Reading `circuit[row][col]` (an empty cell when out of range). -/
def getCell (circuit : List (List Cell)) (row col : ℕ) : Cell :=
  (circuit.getD row []).getD col ⟨none⟩

/-- The gate-collection loop of `simulateCircuit` for one column: every
non-null cell of the column, in row-ascending order, paired with its row. -/
def gatesInColumn (circuit : List (List Cell)) (numQubits col : ℕ) : List (ℕ × Gate) :=
  (List.range numQubits).filterMap fun row =>
    (getCell circuit row col).gate.map fun g => (row, g)

/-- The gate-dispatch switch of `simulateCircuit`: the six supported ids apply
their matrix to the target qubit; `measure` and every other id leave the
state untouched, contributing only a description string. -/
noncomputable def applyNamedGate (numQubits : ℕ) (st : List (Cplx ℝ)) (qubit : ℕ)
    (g : Gate) : List (Cplx ℝ) × String :=
  if g.id = "h" then
    (applySingleQubitGate st hadamardMatrix qubit numQubits,
      "Hadamard (H) to qubit " ++ toString qubit)
  else if g.id = "x" then
    (applySingleQubitGate st xMatrix qubit numQubits,
      "X gate to qubit " ++ toString qubit)
  else if g.id = "y" then
    (applySingleQubitGate st yMatrix qubit numQubits,
      "Y gate to qubit " ++ toString qubit)
  else if g.id = "z" then
    (applySingleQubitGate st zMatrix qubit numQubits,
      "Z gate to qubit " ++ toString qubit)
  else if g.id = "s" then
    (applySingleQubitGate st sMatrix qubit numQubits,
      "S gate to qubit " ++ toString qubit)
  else if g.id = "t" then
    (applySingleQubitGate st tMatrix qubit numQubits,
      "T gate to qubit " ++ toString qubit)
  else if g.id = "measure" then
    (st, "Measurement on qubit " ++ toString qubit)
  else
    (st, g.name ++ " gate to qubit " ++ toString qubit)

/-- The per-column gate loop of `simulateCircuit`: apply each collected gate
in encounter order to the working state, collecting one description per
gate. -/
noncomputable def applyColumn (numQubits : ℕ) (st : List (Cplx ℝ))
    (gatesApplied : List (ℕ × Gate)) : List (Cplx ℝ) × List String :=
  gatesApplied.foldl
    (fun acc rg =>
      ((applyNamedGate numQubits acc.1 rg.1 rg.2).1,
        acc.2 ++ [(applyNamedGate numQubits acc.1 rg.1 rg.2).2]))
    (st, [])

/-- The whole-circuit scan of `simulateCircuit` that short-circuits when no
cell anywhere holds a gate. -/
def hasAnyGates (circuit : List (List Cell)) (numQubits maxDepth : ℕ) : Bool :=
  (List.range maxDepth).any fun col =>
    (List.range numQubits).any fun row => (getCell circuit row col).gate.isSome

/-- The per-column step of `simulateCircuit`: skip the column when it holds no
gates, otherwise apply its gates to (a clone of) the previous step's state and
append a new step with the joined description. -/
noncomputable def simStepBody (numQubits : ℕ) (circuit : List (List Cell))
    (steps : List SimulationStep) (col : ℕ) : List SimulationStep :=
  let gatesApplied := gatesInColumn circuit numQubits col
  if gatesApplied.isEmpty then steps
  else
    let r := applyColumn numQubits ((steps.getLastD ⟨0, [], ""⟩).state) gatesApplied
    steps ++ [⟨steps.length, r.1, "Applied " ++ String.intercalate (", ") r.2⟩]

/-- Source `simulateCircuit`: the initial step followed by one step per
gate-bearing column, scanned left to right; the whole call fails when
`createInitialState` does. -/
noncomputable def simulateCircuit (numQubits maxDepth : ℕ) (circuit : List (List Cell))
    (initialStates : List QubitInit) : Option (List SimulationStep) :=
  (createInitialState numQubits initialStates).map fun initialState =>
    let steps0 : List SimulationStep := [⟨0, initialState, "Initial state"⟩]
    if hasAnyGates circuit numQubits maxDepth = false then steps0
    else (List.range maxDepth).foldl (simStepBody numQubits circuit) steps0

/-- The gate-bearing columns, left to right. -/
def nonEmptyColumns (circuit : List (List Cell)) (numQubits maxDepth : ℕ) : List ℕ :=
  (List.range maxDepth).filter fun col => !(gatesInColumn circuit numQubits col).isEmpty

/-- Modelled from the spec: the sequence of state snapshots named by §4.3 —
the initial state followed by one state per processed column, each obtained
from the previous one by applying that column's collected gates in order. -/
noncomputable def columnStates (numQubits : ℕ) (circuit : List (List Cell))
    (st : List (Cplx ℝ)) : List ℕ → List (List (Cplx ℝ))
  | [] => [st]
  | c :: cs =>
      st :: columnStates numQubits circuit
        ((applyColumn numQubits st (gatesInColumn circuit numQubits c)).1) cs

theorem Cplx.add_def (a b : Cplx F) : a + b = ⟨a.re + b.re, a.im + b.im⟩ := rfl

theorem Cplx.zero_def : (0 : Cplx F) = ⟨0, 0⟩ := rfl

theorem Cplx.re_sum {ι : Type} (s : Finset ι) (f : ι → Cplx F) :
    (∑ x ∈ s, f x).re = ∑ x ∈ s, (f x).re := by
  induction s using Finset.cons_induction with
  | empty => rfl
  | cons a t ha ih => simp [Finset.sum_cons, ih, Cplx.add_def]

theorem Cplx.im_sum {ι : Type} (s : Finset ι) (f : ι → Cplx F) :
    (∑ x ∈ s, f x).im = ∑ x ∈ s, (f x).im := by
  induction s using Finset.cons_induction with
  | empty => rfl
  | cons a t ha ih => simp [Finset.sum_cons, ih, Cplx.add_def]

theorem applySingleQubitGate_length (state : List (Cplx F)) (gateMatrix : Matrix2 F)
    (qubit numQubits : ℕ) :
    (applySingleQubitGate state gateMatrix qubit numQubits).length = 2 ^ numQubits := by
  simp [applySingleQubitGate]

theorem gateStep_apply (M : Matrix2 F) (s : ℕ → Cplx F) (q : ℕ)
    (new : ℕ → Cplx F) (i j : ℕ) :
    gateStep M s q new i j = new j + contrib M s q i j := by
  unfold gateStep contrib
  by_cases hb : (i >>> q) &&& 1 = 0
  · simp only [if_pos hb]
    by_cases h1 : j = i
    · subst h1
      simp only [if_pos rfl]
      rfl
    · by_cases h2 : j = i ^^^ (1 <<< q)
      · subst h2
        simp only [if_neg h1, if_pos rfl]
        rfl
      · simp only [if_neg h1, if_neg h2]
        rw [add_zero]
  · simp only [if_neg hb]
    by_cases h2 : j = i ^^^ (1 <<< q)
    · subst h2
      simp only [if_pos rfl]
      rfl
    · by_cases h1 : j = i
      · subst h1
        simp only [if_neg h2, if_pos rfl]
        rfl
      · simp only [if_neg h1, if_neg h2]
        rw [add_zero]

theorem foldl_gateStep_apply (M : Matrix2 F) (s : ℕ → Cplx F) (q : ℕ) (l : List ℕ)
    (init : ℕ → Cplx F) (j : ℕ) :
    (l.foldl (gateStep M s q) init) j = init j + (l.map fun i => contrib M s q i j).sum := by
  induction l generalizing init with
  | nil => simp
  | cons a t ih =>
      simp only [List.foldl_cons, List.map_cons, List.sum_cons]
      rw [ih, gateStep_apply, add_assoc]

theorem list_range_map_sum {M' : Type} [AddCommMonoid M'] (f : ℕ → M') (n : ℕ) :
    ((List.range n).map f).sum = ∑ i ∈ Finset.range n, f i := by
  induction n with
  | zero => simp
  | succ k ih => simp [List.range_succ, Finset.sum_range_succ, ih]

theorem and_one_eq_zero_iff (x q : ℕ) :
    (x >>> q) &&& 1 = 0 ↔ Nat.testBit x q = false := by
  simp [Nat.testBit_to_div_mod, Nat.shiftRight_eq_div_pow, Nat.and_one_is_mod]

theorem one_shiftLeft_eq (q : ℕ) : 1 <<< q = 2 ^ q := by
  simp [Nat.shiftLeft_eq]

theorem xor_pow_xor (i q : ℕ) : (i ^^^ 2 ^ q) ^^^ 2 ^ q = i := by
  rw [Nat.xor_assoc, Nat.xor_self, Nat.xor_zero]

theorem testBit_xor_pow_self (i q : ℕ) :
    Nat.testBit (i ^^^ 2 ^ q) q = !Nat.testBit i q := by
  simp [Nat.testBit_xor, Nat.testBit_two_pow_self]

theorem testBit_xor_pow_other (i q k : ℕ) (h : k ≠ q) :
    Nat.testBit (i ^^^ 2 ^ q) k = Nat.testBit i k := by
  simp [Nat.testBit_xor, Nat.testBit_two_pow, Ne.symm h]

theorem xor_pow_ne (i q : ℕ) : i ^^^ 2 ^ q ≠ i := by
  intro h
  have hbit := congrArg (fun m => Nat.testBit m q) h
  simp [testBit_xor_pow_self] at hbit

theorem xor_pow_lt (i q n : ℕ) (hq : q < n) (hi : i < 2 ^ n) : i ^^^ 2 ^ q < 2 ^ n :=
  Nat.xor_lt_two_pow hi (Nat.pow_lt_pow_right one_lt_two hq)

theorem contrib_eq (M : Matrix2 F) (s : ℕ → Cplx F) (q j : ℕ) (i : ℕ) :
    contrib M s q i j =
      (if i = j then
        (if Nat.testBit j q = false then complexMultiply M.m00 (s j)
         else complexMultiply M.m11 (s j)) else 0)
      + (if i = j ^^^ 2 ^ q then
          (if Nat.testBit j q = false then complexMultiply M.m10 (s (j ^^^ 2 ^ q))
           else complexMultiply M.m01 (s (j ^^^ 2 ^ q))) else 0) := by
  unfold contrib
  simp only [one_shiftLeft_eq, and_one_eq_zero_iff]
  by_cases h1 : i = j
  · subst h1
    have hne : i ^^^ 2 ^ q ≠ i := xor_pow_ne i q
    have hne2 : i ≠ i ^^^ 2 ^ q := fun h => hne h.symm
    cases hb : Nat.testBit i q <;> simp [hne, hne2]
  · by_cases h2 : i = j ^^^ 2 ^ q
    · subst h2
      have hjj : j = (j ^^^ 2 ^ q) ^^^ 2 ^ q := (xor_pow_xor j q).symm
      cases hb : Nat.testBit j q <;>
        simp [testBit_xor_pow_self, hb, h1, Ne.symm h1, ← hjj]
    · have hj1 : j ≠ i := Ne.symm h1
      have hj2 : j ≠ i ^^^ 2 ^ q := by
        intro h
        exact h2 (by rw [h, xor_pow_xor])
      cases hb : Nat.testBit i q <;> simp [hj1, hj2, h1, h2]

theorem sum_contrib (M : Matrix2 F) (s : ℕ → Cplx F) (q n j : ℕ)
    (hq : q < n) (hj : j < 2 ^ n) :
    ∑ i ∈ Finset.range (2 ^ n), contrib M s q i j =
      if Nat.testBit j q = false then
        complexMultiply M.m00 (s j) + complexMultiply M.m10 (s (j ^^^ 2 ^ q))
      else
        complexMultiply M.m01 (s (j ^^^ 2 ^ q)) + complexMultiply M.m11 (s j) := by
  have hmem1 : j ∈ Finset.range (2 ^ n) := Finset.mem_range.mpr hj
  have hmem2 : j ^^^ 2 ^ q ∈ Finset.range (2 ^ n) :=
    Finset.mem_range.mpr (xor_pow_lt j q n hq hj)
  rw [Finset.sum_congr rfl fun i _ => contrib_eq M s q j i, Finset.sum_add_distrib,
    Finset.sum_ite_eq' (Finset.range (2 ^ n)) j, Finset.sum_ite_eq' (Finset.range (2 ^ n)),
    if_pos hmem1, if_pos hmem2]
  cases hb : Nat.testBit j q <;> simp [add_comm]

theorem applySingleQubitGate_getD (state : List (Cplx F)) (M : Matrix2 F)
    (q n j : ℕ) (hq : q < n) (hj : j < 2 ^ n) :
    (applySingleQubitGate state M q n).getD j ⟨0, 0⟩ =
      if Nat.testBit j q = false then
        complexMultiply M.m00 (state.getD j ⟨0, 0⟩)
          + complexMultiply M.m10 (state.getD (j ^^^ 2 ^ q) ⟨0, 0⟩)
      else
        complexMultiply M.m01 (state.getD (j ^^^ 2 ^ q) ⟨0, 0⟩)
          + complexMultiply M.m11 (state.getD j ⟨0, 0⟩) := by
  unfold applySingleQubitGate
  simp only [List.getD_eq_getElem?_getD, List.getElem?_map, List.getElem?_range, hj,
    if_pos, Option.map_some', Option.getD_some]
  rw [foldl_gateStep_apply, list_range_map_sum,
    sum_contrib M (fun i => state[i]?.getD ⟨0, 0⟩) q n j hq hj]
  simp only [← Cplx.zero_def, zero_add]

/-- C1 (amended): for every state vector, qubit index `q < n` and 2×2 matrix
`M`, `applySingleQubitGate` reads only pre-gate amplitudes (it accumulates into
a fresh zero array, so no read-after-write hazard occurs), and the net effect
on each unordered pair \x7bi0, i0 XOR (1<<q)\x7d — accumulated from the two
member iterations rather than guarded to run once — applies the TRANSPOSE of
`M`: writing `i1 = i0 XOR (1<<q)` with bit `q` of `i0` equal to 0,
`new[i0] = M[0][0]·old[i0] + M[1][0]·old[i1]` and
`new[i1] = M[0][1]·old[i0] + M[1][1]·old[i1]`.  This coincides with the
claimed row-action formula exactly when `M[0][1] = M[1][0]` (true for H, X, Z,
S, T; false for Y). -/
theorem c1_transposed_pair_update {F : Type} [CommRing F] (state : List (Cplx F))
    (gateMatrix : Matrix2 F) (qubit numQubits i0 : ℕ)
    (h1 : qubit < numQubits) (h2 : i0 < 2 ^ numQubits)
    (h3 : Nat.testBit i0 qubit = false) :
    (applySingleQubitGate state gateMatrix qubit numQubits).getD i0 ⟨0, 0⟩
        = complexAdd (complexMultiply gateMatrix.m00 (state.getD i0 ⟨0, 0⟩))
            (complexMultiply gateMatrix.m10 (state.getD (i0 ^^^ 2 ^ qubit) ⟨0, 0⟩))
      ∧ (applySingleQubitGate state gateMatrix qubit numQubits).getD (i0 ^^^ 2 ^ qubit) ⟨0, 0⟩
        = complexAdd (complexMultiply gateMatrix.m01 (state.getD i0 ⟨0, 0⟩))
            (complexMultiply gateMatrix.m11 (state.getD (i0 ^^^ 2 ^ qubit) ⟨0, 0⟩)) := by
  constructor
  · rw [applySingleQubitGate_getD state gateMatrix qubit numQubits i0 h1 h2, if_pos h3]
    rfl
  · have hb : ¬ Nat.testBit (i0 ^^^ 2 ^ qubit) qubit = false := by
      rw [testBit_xor_pow_self, h3]
      simp
    rw [applySingleQubitGate_getD state gateMatrix qubit numQubits (i0 ^^^ 2 ^ qubit) h1
        (xor_pow_lt i0 qubit numQubits h1 h2), if_neg hb, xor_pow_xor]
    rfl

/-- C1 witness: concrete instance of the amended pair-update rule, for the X
gate on a one-qubit integer-amplitude state. -/
theorem c1_transposed_pair_update_witness :
    (applySingleQubitGate ([⟨3, 0⟩, ⟨5, 0⟩] : List (Cplx ℤ)) xMatrix 0 1).getD 0 ⟨0, 0⟩
        = complexAdd (complexMultiply (xMatrix : Matrix2 ℤ).m00
              (([⟨3, 0⟩, ⟨5, 0⟩] : List (Cplx ℤ)).getD 0 ⟨0, 0⟩))
            (complexMultiply (xMatrix : Matrix2 ℤ).m10
              (([⟨3, 0⟩, ⟨5, 0⟩] : List (Cplx ℤ)).getD (0 ^^^ 2 ^ 0) ⟨0, 0⟩))
      ∧ (applySingleQubitGate ([⟨3, 0⟩, ⟨5, 0⟩] : List (Cplx ℤ)) xMatrix 0 1).getD (0 ^^^ 2 ^ 0) ⟨0, 0⟩
        = complexAdd (complexMultiply (xMatrix : Matrix2 ℤ).m01
              (([⟨3, 0⟩, ⟨5, 0⟩] : List (Cplx ℤ)).getD 0 ⟨0, 0⟩))
            (complexMultiply (xMatrix : Matrix2 ℤ).m11
              (([⟨3, 0⟩, ⟨5, 0⟩] : List (Cplx ℤ)).getD (0 ^^^ 2 ^ 0) ⟨0, 0⟩)) :=
  c1_transposed_pair_update ([⟨3, 0⟩, ⟨5, 0⟩] : List (Cplx ℤ)) xMatrix 0 1 0
    (by decide) (by decide) (by decide)

/-- C1 counterexample: for the Y gate on the one-qubit state |1⟩ (old = [0, 1]),
the claimed row-action formula predicts `new[0] = M[0][0]·old[0] +
M[0][1]·old[1] = −i`, but `applySingleQubitGate` produces `new[0] = +i`: the
claim is false at this input. -/
theorem c1_claim_counterexample :
    ¬ ((applySingleQubitGate ([⟨0, 0⟩, ⟨1, 0⟩] : List (Cplx ℤ)) yMatrix 0 1).getD 0 ⟨0, 0⟩
        = complexAdd
            (complexMultiply (yMatrix : Matrix2 ℤ).m00
              (([⟨0, 0⟩, ⟨1, 0⟩] : List (Cplx ℤ)).getD 0 ⟨0, 0⟩))
            (complexMultiply (yMatrix : Matrix2 ℤ).m01
              (([⟨0, 0⟩, ⟨1, 0⟩] : List (Cplx ℤ)).getD 1 ⟨0, 0⟩))) := by
  decide

theorem basisStateIndex_go (initialStates : List QubitInit) (n : ℕ) :
    ∀ L : List ℕ, (∀ i ∈ L, i < initialStates.length ∧ i < n) →
      ∀ acc, acc < 2 ^ n →
        ∃ r, (L.foldlM
            (fun acc i =>
              match initialStates[i]? with
              | none => none
              | some st => some (if st.value = "1" then acc ||| (1 <<< i) else acc))
            acc) = some r ∧ r < 2 ^ n := by
  intro L
  induction L with
  | nil =>
      intro _ acc hacc
      exact ⟨acc, rfl, hacc⟩
  | cons a t ih =>
      intro hmem acc hacc
      obtain ⟨ha1, ha2⟩ := hmem a (List.mem_cons_self a t)
      have hget : initialStates[a]? = some initialStates[a] := List.getElem?_eq_getElem ha1
      have hstep : ∀ st : QubitInit,
          (if st.value = "1" then acc ||| (1 <<< a) else acc) < 2 ^ n := by
        intro st
        by_cases hv : st.value = "1"
        · rw [if_pos hv]
          exact Nat.or_lt_two_pow hacc
            (by rw [one_shiftLeft_eq]; exact Nat.pow_lt_pow_right one_lt_two ha2)
        · rw [if_neg hv]
          exact hacc
      obtain ⟨r, hr, hrlt⟩ :=
        ih (fun i hi => hmem i (List.mem_cons_of_mem a hi))
          (if (initialStates[a]).value = "1" then acc ||| (1 <<< a) else acc)
          (hstep _)
      refine ⟨r, ?_, hrlt⟩
      rw [List.foldlM_cons, hget]
      exact hr

theorem basisStateIndex_eq_some (numQubits : ℕ) (initialStates : List QubitInit)
    (h : numQubits ≤ initialStates.length) :
    ∃ b, basisStateIndex numQubits initialStates = some b ∧ b < 2 ^ numQubits := by
  obtain ⟨r, hr, hrlt⟩ :=
    basisStateIndex_go initialStates numQubits (List.range numQubits)
      (fun i hi => ⟨lt_of_lt_of_le (List.mem_range.mp hi) h, List.mem_range.mp hi⟩)
      0 (Nat.pos_pow_of_pos numQubits (by norm_num))
  exact ⟨r, hr, hrlt⟩

theorem basisStateIndex_eq_none (numQubits : ℕ) (initialStates : List QubitInit)
    (h : initialStates.length < numQubits) :
    basisStateIndex numQubits initialStates = none := by
  obtain ⟨m, hm⟩ : ∃ m, numQubits = initialStates.length + (m + 1) :=
    ⟨numQubits - initialStates.length - 1, by omega⟩
  rw [basisStateIndex, hm, List.range_add, List.foldlM_append]
  obtain ⟨r, hr, _⟩ :=
    basisStateIndex_go initialStates numQubits (List.range initialStates.length)
      (fun i hi => ⟨List.mem_range.mp hi, by have := List.mem_range.mp hi; omega⟩)
      0 (Nat.pos_pow_of_pos numQubits (by norm_num))
  rw [hr]
  have hnone : initialStates[initialStates.length + 0]? = none :=
    List.getElem?_eq_none (by omega)
  simp [List.range_succ_eq_map, hnone]

/-- C3 (amended): `createInitialState` performs no length validation at all.
When `initialStates.length ≥ n` (including strict mismatch `> n`) it silently
returns a `2 ^ n`-entry state vector, ignoring the extra entries; when
`initialStates.length < n` the loop reads an undefined entry and the call
fails with a JavaScript `TypeError` (modelled `none`), not a
`ConfigurationError`. -/
theorem c3_no_length_validation {F : Type} [CommRing F] (numQubits : ℕ)
    (initialStates : List QubitInit) :
    (numQubits ≤ initialStates.length →
      ∃ st, createInitialState (F := F) numQubits initialStates = some st
        ∧ st.length = 2 ^ numQubits)
    ∧ (initialStates.length < numQubits →
      createInitialState (F := F) numQubits initialStates = none) := by
  constructor
  · intro h
    obtain ⟨b, hb, _⟩ := basisStateIndex_eq_some numQubits initialStates h
    exact ⟨_, by rw [createInitialState, hb]; rfl, by simp⟩
  · intro h
    rw [createInitialState, basisStateIndex_eq_none numQubits initialStates h]
    rfl

/-- C3 witness: with one declared qubit and a two-entry assignment array the
call succeeds and returns a length-2 vector. -/
theorem c3_no_length_validation_witness :
    ∃ st, createInitialState (F := ℤ) 1 [⟨"0"⟩, ⟨"1"⟩] = some st
      ∧ st.length = 2 ^ 1 :=
  (c3_no_length_validation (F := ℤ) 1 [⟨"0"⟩, ⟨"1"⟩]).1 (by decide)

/-- C3 counterexample: with 1 declared qubit and a 2-entry initial-state array
(a length mismatch), `createInitialState` silently returns a state vector
instead of surfacing any error. -/
theorem c3_claim_counterexample :
    ([⟨"0"⟩, ⟨"1"⟩] : List QubitInit).length ≠ 1
    ∧ (createInitialState (F := ℤ) 1 [⟨"0"⟩, ⟨"1"⟩]).isSome = true := by
  decide

theorem sum_range_pow_pair {M' : Type} [AddCommMonoid M'] (f : ℕ → M') (n q : ℕ)
    (hq : q < n) :
    ∑ j ∈ Finset.range (2 ^ n), f j =
      ∑ j ∈ (Finset.range (2 ^ n)).filter (fun j => Nat.testBit j q = false),
        (f j + f (j ^^^ 2 ^ q)) := by
  have h2 :
      ∑ j ∈ (Finset.range (2 ^ n)).filter (fun j => ¬ Nat.testBit j q = false), f j =
        ∑ j ∈ (Finset.range (2 ^ n)).filter (fun j => Nat.testBit j q = false),
          f (j ^^^ 2 ^ q) := by
    apply Finset.sum_nbij' (fun a => a ^^^ 2 ^ q) (fun a => a ^^^ 2 ^ q)
    · intro a ha
      obtain ⟨ha1, ha2⟩ := Finset.mem_filter.mp ha
      refine Finset.mem_filter.mpr ⟨Finset.mem_range.mpr
        (xor_pow_lt a q n hq (Finset.mem_range.mp ha1)), ?_⟩
      rw [testBit_xor_pow_self]
      simp only [Bool.not_eq_false] at ha2
      rw [ha2]
      rfl
    · intro a ha
      obtain ⟨ha1, ha2⟩ := Finset.mem_filter.mp ha
      refine Finset.mem_filter.mpr ⟨Finset.mem_range.mpr
        (xor_pow_lt a q n hq (Finset.mem_range.mp ha1)), ?_⟩
      rw [testBit_xor_pow_self, ha2]
      simp
    · intro a _
      exact xor_pow_xor a q
    · intro a _
      exact xor_pow_xor a q
    · intro a _
      rw [xor_pow_xor]
  rw [← Finset.sum_filter_add_sum_filter_not (Finset.range (2 ^ n))
    (fun j => Nat.testBit j q = false) f, h2, ← Finset.sum_add_distrib]

theorem hadamard_pair_norm (x y : Cplx ℝ) :
    normSq (complexMultiply hadamardMatrix.m00 x + complexMultiply hadamardMatrix.m10 y)
      + normSq (complexMultiply hadamardMatrix.m01 x + complexMultiply hadamardMatrix.m11 y)
      = normSq x + normSq y := by
  obtain ⟨a, b⟩ := x
  obtain ⟨c, d⟩ := y
  have hu : (1 / Real.sqrt 2) * (1 / Real.sqrt 2) = 1 / 2 := by
    rw [div_mul_div_comm, one_mul, Real.mul_self_sqrt (by norm_num)]
  simp only [normSq, complexMultiply, hadamardMatrix, Cplx.add_def]
  linear_combination (2 * (a * a + b * b + c * c + d * d)) * hu

theorem x_pair_norm (x y : Cplx F) :
    normSq (complexMultiply xMatrix.m00 x + complexMultiply xMatrix.m10 y)
      + normSq (complexMultiply xMatrix.m01 x + complexMultiply xMatrix.m11 y)
      = normSq x + normSq y := by
  obtain ⟨a, b⟩ := x
  obtain ⟨c, d⟩ := y
  simp only [normSq, complexMultiply, xMatrix, Cplx.add_def]
  ring

theorem y_pair_norm (x y : Cplx F) :
    normSq (complexMultiply yMatrix.m00 x + complexMultiply yMatrix.m10 y)
      + normSq (complexMultiply yMatrix.m01 x + complexMultiply yMatrix.m11 y)
      = normSq x + normSq y := by
  obtain ⟨a, b⟩ := x
  obtain ⟨c, d⟩ := y
  simp only [normSq, complexMultiply, yMatrix, Cplx.add_def]
  ring

theorem z_pair_norm (x y : Cplx F) :
    normSq (complexMultiply zMatrix.m00 x + complexMultiply zMatrix.m10 y)
      + normSq (complexMultiply zMatrix.m01 x + complexMultiply zMatrix.m11 y)
      = normSq x + normSq y := by
  obtain ⟨a, b⟩ := x
  obtain ⟨c, d⟩ := y
  simp only [normSq, complexMultiply, zMatrix, Cplx.add_def]
  ring

theorem s_pair_norm (x y : Cplx F) :
    normSq (complexMultiply sMatrix.m00 x + complexMultiply sMatrix.m10 y)
      + normSq (complexMultiply sMatrix.m01 x + complexMultiply sMatrix.m11 y)
      = normSq x + normSq y := by
  obtain ⟨a, b⟩ := x
  obtain ⟨c, d⟩ := y
  simp only [normSq, complexMultiply, sMatrix, Cplx.add_def]
  ring

theorem t_pair_norm (x y : Cplx ℝ) :
    normSq (complexMultiply tMatrix.m00 x + complexMultiply tMatrix.m10 y)
      + normSq (complexMultiply tMatrix.m01 x + complexMultiply tMatrix.m11 y)
      = normSq x + normSq y := by
  obtain ⟨a, b⟩ := x
  obtain ⟨c, d⟩ := y
  have hcs : Real.cos (Real.pi / 4) ^ 2 + Real.sin (Real.pi / 4) ^ 2 = 1 :=
    Real.cos_sq_add_sin_sq (Real.pi / 4)
  simp only [normSq, complexMultiply, tMatrix, Cplx.add_def]
  linear_combination (c * c + d * d) * hcs

theorem applySingleQubitGate_sumNormSq (g : GateId) (st : List (Cplx ℝ)) (q n : ℕ)
    (hq : q < n) (hlen : st.length = 2 ^ n) :
    sumNormSq (applySingleQubitGate st (gateMatrixOf g) q n) = sumNormSq st := by
  unfold sumNormSq
  rw [applySingleQubitGate_length, hlen,
    sum_range_pow_pair
      (fun i => normSq ((applySingleQubitGate st (gateMatrixOf g) q n).getD i ⟨0, 0⟩)) n q hq,
    sum_range_pow_pair (fun i => normSq (st.getD i ⟨0, 0⟩)) n q hq]
  apply Finset.sum_congr rfl
  intro j hj
  obtain ⟨hj1, hj2⟩ := Finset.mem_filter.mp hj
  have hjlt := Finset.mem_range.mp hj1
  have hflt := xor_pow_lt j q n hq hjlt
  have hbit2 : ¬ Nat.testBit (j ^^^ 2 ^ q) q = false := by
    rw [testBit_xor_pow_self, hj2]
    simp
  rw [applySingleQubitGate_getD st (gateMatrixOf g) q n j hq hjlt, if_pos hj2,
    applySingleQubitGate_getD st (gateMatrixOf g) q n (j ^^^ 2 ^ q) hq hflt,
    if_neg hbit2, xor_pow_xor]
  cases g with
  | h => exact hadamard_pair_norm _ _
  | x => exact x_pair_norm _ _
  | y => exact y_pair_norm _ _
  | z => exact z_pair_norm _ _
  | s => exact s_pair_norm _ _
  | t => exact t_pair_norm _ _

theorem basisStateIndex_lt_aux (initialStates : List QubitInit) (n : ℕ) :
    ∀ L : List ℕ, (∀ i ∈ L, i < n) → ∀ acc, acc < 2 ^ n → ∀ r,
      (L.foldlM
          (fun acc i =>
            match initialStates[i]? with
            | none => none
            | some st => some (if st.value = "1" then acc ||| (1 <<< i) else acc))
          acc) = some r → r < 2 ^ n := by
  intro L
  induction L with
  | nil =>
      intro _ acc hacc r hr
      simp only [List.foldlM_nil, Option.pure_def, Option.some.injEq] at hr
      omega
  | cons a t ih =>
      intro hmem acc hacc r hr
      rw [List.foldlM_cons] at hr
      cases hget : initialStates[a]? with
      | none =>
          rw [hget] at hr
          simp at hr
      | some st =>
          rw [hget] at hr
          have hstep : (if st.value = "1" then acc ||| (1 <<< a) else acc) < 2 ^ n := by
            by_cases hv : st.value = "1"
            · rw [if_pos hv]
              exact Nat.or_lt_two_pow hacc
                (by rw [one_shiftLeft_eq]
                    exact Nat.pow_lt_pow_right one_lt_two (hmem a (List.mem_cons_self a t)))
            · rw [if_neg hv]
              exact hacc
          exact ih (fun i hi => hmem i (List.mem_cons_of_mem a hi)) _ hstep r hr

theorem createInitialState_spec {F : Type} [CommRing F] (n : ℕ)
    (initialStates : List QubitInit) (st : List (Cplx F))
    (h : createInitialState n initialStates = some st) :
    st.length = 2 ^ n ∧ sumNormSq st = 1 := by
  unfold createInitialState at h
  cases hb : basisStateIndex n initialStates with
  | none =>
      rw [hb] at h
      simp at h
  | some b =>
      rw [hb] at h
      simp only [Option.map_some', Option.some.injEq] at h
      have hblt : b < 2 ^ n := by
        apply basisStateIndex_lt_aux initialStates n (List.range n)
          (fun i hi => List.mem_range.mp hi) 0
          (Nat.pos_pow_of_pos n (by norm_num)) b
        exact hb
      subst h
      constructor
      · simp
      · unfold sumNormSq
        simp only [List.length_map, List.length_range]
        have hcong : ∀ i ∈ Finset.range (2 ^ n),
            normSq (((List.range (2 ^ n)).map fun i =>
              if i = b then (⟨1, 0⟩ : Cplx F) else ⟨0, 0⟩).getD i ⟨0, 0⟩) =
              if i = b then 1 else 0 := by
          intro i hi
          have hilt := Finset.mem_range.mp hi
          simp only [List.getD_eq_getElem?_getD, List.getElem?_map, List.getElem?_range,
            hilt, if_pos, Option.map_some', Option.getD_some]
          by_cases hib : i = b
          · rw [if_pos hib, if_pos hib]
            simp [normSq]
          · rw [if_neg hib, if_neg hib]
            simp [normSq]
        rw [Finset.sum_congr rfl hcong, Finset.sum_ite_eq' (Finset.range (2 ^ n)) b
          (fun _ => (1 : F)), if_pos (Finset.mem_range.mpr hblt)]

/-- C2: for every qubit count 1 ≤ n ≤ 8, every initial basis assignment
accepted by `createInitialState`, and every sequence of applications of the
six supported single-qubit gates (H, X, Y, Z, S, T) on qubits below `n`, the
resulting state vector still has length `2 ^ n` and its total squared
magnitude differs from 1 by at most 1e-9 (it is in fact exactly 1). -/
theorem c2_normalization_invariant (n : ℕ) (h1 : 1 ≤ n) (h8 : n ≤ 8)
    (initialStates : List QubitInit) (init : List (Cplx ℝ))
    (hinit : createInitialState n initialStates = some init)
    (gs : List (GateId × ℕ)) (hg : ∀ g ∈ gs, g.2 < n) :
    (runGates init gs n).length = 2 ^ n
    ∧ |sumNormSq (runGates init gs n) - 1| ≤ 1e-9 := by
  have key : ∀ l : List (GateId × ℕ), (∀ g ∈ l, g.2 < n) →
      ∀ st : List (Cplx ℝ), st.length = 2 ^ n → sumNormSq st = 1 →
        (runGates st l n).length = 2 ^ n ∧ sumNormSq (runGates st l n) = 1 := by
    intro l
    induction l with
    | nil =>
        intro _ st hlen hsum
        exact ⟨hlen, hsum⟩
    | cons a t ih =>
        intro hmem st hlen hsum
        have ha := hmem a (List.mem_cons_self a t)
        have hstep := applySingleQubitGate_sumNormSq a.1 st a.2 n ha hlen
        rw [hsum] at hstep
        exact ih (fun g hg => hmem g (List.mem_cons_of_mem a hg))
          (applySingleQubitGate st (gateMatrixOf a.1) a.2 n)
          (applySingleQubitGate_length st (gateMatrixOf a.1) a.2 n) hstep
  obtain ⟨hlen0, hsum0⟩ := createInitialState_spec n initialStates init hinit
  obtain ⟨hlen, hsum⟩ := key gs hg init hlen0 hsum0
  refine ⟨hlen, ?_⟩
  rw [hsum]
  norm_num

/-- C2 witness: one qubit prepared in |0⟩ with the empty gate sequence. -/
theorem c2_normalization_invariant_witness :
    (runGates ([⟨1, 0⟩, ⟨0, 0⟩] : List (Cplx ℝ)) [] 1).length = 2 ^ 1
    ∧ |sumNormSq (runGates ([⟨1, 0⟩, ⟨0, 0⟩] : List (Cplx ℝ)) [] 1) - 1| ≤ 1e-9 :=
  c2_normalization_invariant 1 (by norm_num) (by norm_num) [⟨"0"⟩]
    [⟨1, 0⟩, ⟨0, 0⟩] rfl [] (by simp)

theorem Cplx.eq_mk (c : Cplx F) : c = ⟨c.re, c.im⟩ := rfl

theorem calculateDensityMatrix_getD (psi : List (Cplx F)) (i j : ℕ)
    (hi : i < psi.length) (hj : j < psi.length) :
    ((calculateDensityMatrix psi).getD i []).getD j ⟨0, 0⟩ =
      complexMultiply (psi.getD i ⟨0, 0⟩) (conjC (psi.getD j ⟨0, 0⟩)) := by
  unfold calculateDensityMatrix
  simp only [List.getD_eq_getElem?_getD, List.getElem?_map, List.getElem?_range, hi, hj,
    if_pos, Option.map_some', Option.getD_some]
  simp only [complexMultiply, conjC, Cplx.mk.injEq, ← List.getD_eq_getElem?_getD]
  constructor <;> ring

/-- C6: the matrix returned by `calculateDensityMatrix` satisfies
ρ[i][j] = ψ[i]·conjugate(ψ[j]) entrywise, is Hermitian
(ρ[j][i] = conjugate(ρ[i][j])), and has trace 1 whenever ψ is normalized. -/
theorem c6_densityMatrix_spec {F : Type} [CommRing F] (psi : List (Cplx F)) (i j : ℕ)
    (hi : i < psi.length) (hj : j < psi.length) :
    ((calculateDensityMatrix psi).getD i []).getD j ⟨0, 0⟩
        = complexMultiply (psi.getD i ⟨0, 0⟩) (conjC (psi.getD j ⟨0, 0⟩))
      ∧ ((calculateDensityMatrix psi).getD j []).getD i ⟨0, 0⟩
        = conjC (((calculateDensityMatrix psi).getD i []).getD j ⟨0, 0⟩)
      ∧ (sumNormSq psi = 1 → matrixTrace (calculateDensityMatrix psi) = ⟨1, 0⟩) := by
  refine ⟨calculateDensityMatrix_getD psi i j hi hj, ?_, ?_⟩
  · rw [calculateDensityMatrix_getD psi i j hi hj, calculateDensityMatrix_getD psi j i hj hi]
    simp only [complexMultiply, conjC, Cplx.mk.injEq]
    constructor <;> ring
  · intro hsum
    unfold matrixTrace
    have hlen : (calculateDensityMatrix psi).length = psi.length := by
      simp [calculateDensityMatrix]
    rw [hlen]
    have hdiag : ∀ k ∈ Finset.range psi.length,
        ((calculateDensityMatrix psi).getD k []).getD k ⟨0, 0⟩ =
          (⟨normSq (psi.getD k ⟨0, 0⟩), 0⟩ : Cplx F) := by
      intro k hk
      have hklt := Finset.mem_range.mp hk
      rw [calculateDensityMatrix_getD psi k k hklt hklt]
      simp only [complexMultiply, conjC, normSq, Cplx.mk.injEq]
      constructor <;> ring
    rw [Finset.sum_congr rfl hdiag,
      Cplx.eq_mk (∑ k ∈ Finset.range psi.length,
        (⟨normSq (psi.getD k ⟨0, 0⟩), 0⟩ : Cplx F)),
      Cplx.re_sum, Cplx.im_sum]
    unfold sumNormSq at hsum
    simp only [Cplx.mk.injEq, Finset.sum_const_zero]
    exact ⟨hsum, trivial⟩

/-- C6 witness: the single-entry normalized state [1]. -/
theorem c6_densityMatrix_spec_witness :
    ((calculateDensityMatrix ([⟨1, 0⟩] : List (Cplx ℤ))).getD 0 []).getD 0 ⟨0, 0⟩
        = complexMultiply (([⟨1, 0⟩] : List (Cplx ℤ)).getD 0 ⟨0, 0⟩)
            (conjC (([⟨1, 0⟩] : List (Cplx ℤ)).getD 0 ⟨0, 0⟩))
      ∧ ((calculateDensityMatrix ([⟨1, 0⟩] : List (Cplx ℤ))).getD 0 []).getD 0 ⟨0, 0⟩
        = conjC (((calculateDensityMatrix ([⟨1, 0⟩] : List (Cplx ℤ))).getD 0 []).getD 0 ⟨0, 0⟩)
      ∧ (sumNormSq ([⟨1, 0⟩] : List (Cplx ℤ)) = 1 →
          matrixTrace (calculateDensityMatrix ([⟨1, 0⟩] : List (Cplx ℤ))) = ⟨1, 0⟩) :=
  c6_densityMatrix_spec ([⟨1, 0⟩] : List (Cplx ℤ)) 0 0 (by decide) (by decide)

/-- C8: for a normalized state vector of length `2 ^ n` and qubit `q < n`, the
per-qubit value computed by `calculateExpectationValues` equals the total
probability of the bit-`q`-equal-0 basis states minus that of the
bit-`q`-equal-1 basis states, and lies in [−1, 1]. -/
theorem c8_expectation_spec {F : Type} [LinearOrderedCommRing F]
    (psi : List (Cplx F)) (n q : ℕ) (hq : q < n) (hlen : psi.length = 2 ^ n)
    (hnorm : sumNormSq psi = 1) :
    ((calculateExpectationValues psi n).getD q (0, 0)).2
        = (∑ i ∈ (Finset.range psi.length).filter
              (fun i => Nat.testBit i q = false), normSq (psi.getD i ⟨0, 0⟩))
          - (∑ i ∈ (Finset.range psi.length).filter
              (fun i => ¬ Nat.testBit i q = false), normSq (psi.getD i ⟨0, 0⟩))
      ∧ -1 ≤ ((calculateExpectationValues psi n).getD q (0, 0)).2
      ∧ ((calculateExpectationValues psi n).getD q (0, 0)).2 ≤ 1 := by
  have hnorm2 : ∑ i ∈ Finset.range psi.length, normSq (psi.getD i ⟨0, 0⟩) = 1 := hnorm
  have hval : ((calculateExpectationValues psi n).getD q (0, 0)).2 =
      ∑ i ∈ Finset.range psi.length,
        (if (i >>> q) &&& 1 = 0 then normSq (psi.getD i ⟨0, 0⟩)
         else -(normSq (psi.getD i ⟨0, 0⟩))) := by
    unfold calculateExpectationValues
    simp only [List.getD_eq_getElem?_getD, List.getElem?_map, List.getElem?_range, hq,
      if_pos, Option.map_some', Option.getD_some]
  have hsplit : ((calculateExpectationValues psi n).getD q (0, 0)).2
      = (∑ i ∈ (Finset.range psi.length).filter
            (fun i => Nat.testBit i q = false), normSq (psi.getD i ⟨0, 0⟩))
        - (∑ i ∈ (Finset.range psi.length).filter
            (fun i => ¬ Nat.testBit i q = false), normSq (psi.getD i ⟨0, 0⟩)) := by
    rw [hval, ← Finset.sum_filter_add_sum_filter_not (Finset.range psi.length)
      (fun i => Nat.testBit i q = false)]
    have e1 : ∀ i ∈ (Finset.range psi.length).filter (fun i => Nat.testBit i q = false),
        (if (i >>> q) &&& 1 = 0 then normSq (psi.getD i ⟨0, 0⟩)
         else -(normSq (psi.getD i ⟨0, 0⟩))) = normSq (psi.getD i ⟨0, 0⟩) := by
      intro i hi
      rw [if_pos ((and_one_eq_zero_iff i q).mpr (Finset.mem_filter.mp hi).2)]
    have e2 : ∀ i ∈ (Finset.range psi.length).filter
        (fun i => ¬ Nat.testBit i q = false),
        (if (i >>> q) &&& 1 = 0 then normSq (psi.getD i ⟨0, 0⟩)
         else -(normSq (psi.getD i ⟨0, 0⟩))) = -(normSq (psi.getD i ⟨0, 0⟩)) := by
      intro i hi
      have hb := (Finset.mem_filter.mp hi).2
      rw [if_neg (fun hc => hb ((and_one_eq_zero_iff i q).mp hc))]
    rw [Finset.sum_congr rfl e1, Finset.sum_congr rfl e2, Finset.sum_neg_distrib,
      ← sub_eq_add_neg]
  have hterm_le : ∀ i ∈ Finset.range psi.length,
      (if (i >>> q) &&& 1 = 0 then normSq (psi.getD i ⟨0, 0⟩)
       else -(normSq (psi.getD i ⟨0, 0⟩))) ≤ normSq (psi.getD i ⟨0, 0⟩) := by
    intro i _
    have hnn : (0 : F) ≤ normSq (psi.getD i ⟨0, 0⟩) :=
      add_nonneg (mul_self_nonneg _) (mul_self_nonneg _)
    by_cases hc : (i >>> q) &&& 1 = 0
    · rw [if_pos hc]
    · rw [if_neg hc]
      linarith
  have hterm_ge : ∀ i ∈ Finset.range psi.length,
      -(normSq (psi.getD i ⟨0, 0⟩)) ≤
        (if (i >>> q) &&& 1 = 0 then normSq (psi.getD i ⟨0, 0⟩)
         else -(normSq (psi.getD i ⟨0, 0⟩))) := by
    intro i _
    have hnn : (0 : F) ≤ normSq (psi.getD i ⟨0, 0⟩) :=
      add_nonneg (mul_self_nonneg _) (mul_self_nonneg _)
    by_cases hc : (i >>> q) &&& 1 = 0
    · rw [if_pos hc]
      linarith
    · rw [if_neg hc]
  have hub : ((calculateExpectationValues psi n).getD q (0, 0)).2 ≤ 1 := by
    rw [hval]
    calc ∑ i ∈ Finset.range psi.length,
          (if (i >>> q) &&& 1 = 0 then normSq (psi.getD i ⟨0, 0⟩)
           else -(normSq (psi.getD i ⟨0, 0⟩)))
        ≤ ∑ i ∈ Finset.range psi.length, normSq (psi.getD i ⟨0, 0⟩) :=
          Finset.sum_le_sum hterm_le
      _ = 1 := hnorm2
  have hlb : -1 ≤ ((calculateExpectationValues psi n).getD q (0, 0)).2 := by
    rw [hval]
    calc (-1 : F) = -(∑ i ∈ Finset.range psi.length, normSq (psi.getD i ⟨0, 0⟩)) := by
          rw [hnorm2]
      _ = ∑ i ∈ Finset.range psi.length, -(normSq (psi.getD i ⟨0, 0⟩)) := by
          rw [Finset.sum_neg_distrib]
      _ ≤ _ := Finset.sum_le_sum hterm_ge
  exact ⟨hsplit, hlb, hub⟩

/-- C8 witness: the one-qubit basis state |0⟩ with integer amplitudes. -/
theorem c8_expectation_spec_witness :
    ((calculateExpectationValues ([⟨1, 0⟩, ⟨0, 0⟩] : List (Cplx ℤ)) 1).getD 0 (0, 0)).2
        = (∑ i ∈ (Finset.range ([⟨1, 0⟩, ⟨0, 0⟩] : List (Cplx ℤ)).length).filter
              (fun i => Nat.testBit i 0 = false),
              normSq (([⟨1, 0⟩, ⟨0, 0⟩] : List (Cplx ℤ)).getD i ⟨0, 0⟩))
          - (∑ i ∈ (Finset.range ([⟨1, 0⟩, ⟨0, 0⟩] : List (Cplx ℤ)).length).filter
              (fun i => ¬ Nat.testBit i 0 = false),
              normSq (([⟨1, 0⟩, ⟨0, 0⟩] : List (Cplx ℤ)).getD i ⟨0, 0⟩))
      ∧ -1 ≤ ((calculateExpectationValues ([⟨1, 0⟩, ⟨0, 0⟩] : List (Cplx ℤ)) 1).getD 0 (0, 0)).2
      ∧ ((calculateExpectationValues ([⟨1, 0⟩, ⟨0, 0⟩] : List (Cplx ℤ)) 1).getD 0 (0, 0)).2 ≤ 1 :=
  c8_expectation_spec ([⟨1, 0⟩, ⟨0, 0⟩] : List (Cplx ℤ)) 1 0 (by decide) (by decide)
    (by decide)

theorem or_two_pow_of_lt (red pos : ℕ) (h : red < 2 ^ pos) :
    red ||| 2 ^ pos = red + 2 ^ pos := by
  apply Nat.eq_of_testBit_eq
  intro k
  rw [Nat.testBit_or, Nat.testBit_two_pow]
  rcases lt_trichotomy k pos with hk | hk | hk
  · have hne : ¬ pos = k := by omega
    have hmod : Nat.testBit (red + 2 ^ pos) k = Nat.testBit ((red + 2 ^ pos) % 2 ^ pos) k := by
      rw [Nat.testBit_mod_two_pow]
      simp [hk]
    rw [hmod, Nat.add_mod_right, Nat.mod_eq_of_lt h]
    simp [hne]
  · subst hk
    have hdiv : (red + 2 ^ k) / 2 ^ k = 1 := by
      rw [Nat.add_div_right red (Nat.pos_pow_of_pos k (by norm_num)),
        Nat.div_eq_of_lt h]
    have hr : (red + 2 ^ k).testBit k = true := by
      rw [Nat.testBit_to_div_mod, hdiv]
      rfl
    rw [hr]
    simp
  · have h1 : red + 2 ^ pos < 2 ^ k := by
      have hp : 2 ^ (pos + 1) ≤ 2 ^ k := Nat.pow_le_pow_right (by norm_num) hk
      have : red + 2 ^ pos < 2 ^ (pos + 1) := by
        rw [pow_succ]
        omega
      omega
    have h2 : red < 2 ^ k := by omega
    rw [Nat.testBit_lt_two_pow h1, Nat.testBit_lt_two_pow h2]
    have hne : ¬ pos = k := by omega
    simp [hne]

theorem and_shift_ne_zero_iff (i q : ℕ) :
    (i &&& (1 <<< q) ≠ 0) ↔ Nat.testBit i q = true := by
  rw [one_shiftLeft_eq, Nat.and_two_pow]
  cases hb : Nat.testBit i q
  · simp
  · have h2 : (2 : ℕ) ^ q ≠ 0 :=
      Nat.pos_iff_ne_zero.mp (Nat.pos_pow_of_pos q (by norm_num))
    simp [h2]

theorem shift_and_one_eq (i q : ℕ) :
    (i >>> q) &&& 1 = if Nat.testBit i q then 1 else 0 := by
  have ht : Nat.testBit i q = decide (i / 2 ^ q % 2 = 1) := Nat.testBit_to_div_mod
  rw [Nat.and_one_is_mod, Nat.shiftRight_eq_div_pow]
  rcases Nat.mod_two_eq_zero_or_one (i / 2 ^ q) with h | h <;> simp [ht, h]

theorem bitsToNat_lt (l : List Bool) : bitsToNat l < 2 ^ l.length := by
  induction l with
  | nil => simp [bitsToNat]
  | cons b t ih =>
      simp only [bitsToNat, List.length_cons, pow_succ]
      by_cases hb : b <;> simp [hb] <;> omega

theorem bitsToNat_inj (l1 : List Bool) :
    ∀ l2 : List Bool, l1.length = l2.length → bitsToNat l1 = bitsToNat l2 → l1 = l2 := by
  induction l1 with
  | nil =>
      intro l2 hlen _
      cases l2 with
      | nil => rfl
      | cons b t => simp at hlen
  | cons b1 t1 ih =>
      intro l2 hlen hval
      cases l2 with
      | nil => simp at hlen
      | cons b2 t2 =>
          simp only [bitsToNat] at hval
          have hb : b1 = b2 := by
            cases b1 <;> cases b2 <;> simp at hval ⊢ <;> omega
          subst hb
          have ht : bitsToNat t1 = bitsToNat t2 := by
            cases b1 <;> simp at hval <;> omega
          have := ih t2 (by simpa using hlen) ht
          rw [this]

theorem bitsToNat_testBit_range (n : ℕ) :
    ∀ i : ℕ, i < 2 ^ n →
      bitsToNat ((List.range n).map fun q => Nat.testBit i q) = i := by
  induction n with
  | zero =>
      intro i hi
      simp only [pow_zero, Nat.lt_one_iff] at hi
      subst hi
      simp [bitsToNat]
  | succ m ih =>
      intro i hi
      rw [List.range_succ_eq_map, List.map_cons, List.map_map]
      have hmap : ((List.range m).map fun q => Nat.testBit i (q + 1))
          = (List.range m).map fun q => Nat.testBit (i / 2) q := by
        apply List.map_congr_left
        intro q _
        exact Nat.testBit_add_one i q
      have hcomp : (List.range m).map ((fun q => Nat.testBit i q) ∘ Nat.succ)
          = (List.range m).map fun q => Nat.testBit i (q + 1) := rfl
      rw [hcomp, hmap]
      have hdiv : i / 2 < 2 ^ m := by
        have hp : (2 : ℕ) ^ (m + 1) = 2 * 2 ^ m := by ring
        omega
      simp only [bitsToNat, ih (i / 2) hdiv, Nat.testBit_zero]
      rcases Nat.mod_two_eq_zero_or_one i with h | h <;> simp [h] <;> omega

theorem shouldInclude_iff (traceOutQubits : List ℕ) (i j : ℕ) :
    shouldInclude traceOutQubits i j = true ↔
      ∀ q ∈ traceOutQubits, Nat.testBit i q = Nat.testBit j q := by
  unfold shouldInclude
  rw [List.all_eq_true]
  constructor
  · intro hall q hq
    have := hall q hq
    rw [beq_iff_eq, shift_and_one_eq, shift_and_one_eq] at this
    cases hbi : Nat.testBit i q <;> cases hbj : Nat.testBit j q <;>
      rw [hbi, hbj] at this <;> simp_all
  · intro hbits q hq
    rw [beq_iff_eq, shift_and_one_eq, shift_and_one_eq, hbits q hq]

theorem mapToReducedIndex_go (S : List ℕ) (i : ℕ) :
    ∀ (l : List ℕ) (red pos : ℕ), red < 2 ^ pos →
      (l.foldl
          (fun st qubit =>
            if S.contains qubit then st
            else
              ((if i &&& (1 <<< qubit) ≠ 0 then st.1 ||| (1 <<< st.2) else st.1),
                st.2 + 1))
          (red, pos))
        = (red + 2 ^ pos * bitsToNat ((l.filter fun q => !S.contains q).map
              fun q => Nat.testBit i q),
           pos + (l.filter fun q => !S.contains q).length)
      ∧ red + 2 ^ pos * bitsToNat ((l.filter fun q => !S.contains q).map
            fun q => Nat.testBit i q)
          < 2 ^ (pos + (l.filter fun q => !S.contains q).length) := by
  intro l
  induction l with
  | nil =>
      intro red pos hred
      simp [bitsToNat, hred]
  | cons a t ih =>
      intro red pos hred
      by_cases ha : S.contains a = true
      · have ham : a ∈ S := List.elem_iff.mp ha
        have hfa : (a :: t).filter (fun q => !S.contains q) =
            t.filter fun q => !S.contains q := by
          simp [List.filter_cons, ham]
        rw [List.foldl_cons, if_pos ha, hfa]
        exact ih red pos hred
      · have ham : a ∉ S := fun hm => ha (List.elem_iff.mpr hm)
        have hfa : (a :: t).filter (fun q => !S.contains q) =
            a :: t.filter fun q => !S.contains q := by
          simp [List.filter_cons, ham]
        have hredval : (if i &&& (1 <<< a) ≠ 0 then red ||| (1 <<< pos) else red)
            = red + 2 ^ pos * (if Nat.testBit i a then 1 else 0) := by
          by_cases hb : i &&& (1 <<< a) ≠ 0
          · rw [if_pos hb, if_pos ((and_shift_ne_zero_iff i a).mp hb),
              one_shiftLeft_eq, or_two_pow_of_lt red pos hred]
            ring
          · have hb2 : Nat.testBit i a ≠ true := fun hc =>
              hb ((and_shift_ne_zero_iff i a).mpr hc)
            rw [if_neg hb, if_neg hb2]
            ring
        have hred2lt : red + 2 ^ pos * (if Nat.testBit i a then 1 else 0)
            < 2 ^ (pos + 1) := by
          rw [pow_succ]
          by_cases hb : Nat.testBit i a <;> simp [hb] <;> omega
        obtain ⟨hfold, hlt⟩ :=
          ih (red + 2 ^ pos * (if Nat.testBit i a then 1 else 0)) (pos + 1) hred2lt
        have harith : red + 2 ^ pos * (if Nat.testBit i a then 1 else 0)
              + 2 ^ (pos + 1) * bitsToNat ((t.filter fun q => !S.contains q).map
                  fun q => Nat.testBit i q)
            = red + 2 ^ pos * bitsToNat (((a :: t).filter fun q => !S.contains q).map
                fun q => Nat.testBit i q) := by
          rw [hfa, List.map_cons]
          simp only [bitsToNat]
          rw [pow_succ]
          ring
        have hlen2 : (((a :: t).filter fun q => !S.contains q)).length
            = ((t.filter fun q => !S.contains q)).length + 1 := by
          rw [hfa, List.length_cons]
        rw [List.foldl_cons, if_neg ha, hredval, hfold]
        constructor
        · rw [Prod.mk.injEq]
          constructor
          · rw [harith]
          · rw [hlen2]
            omega
        · rw [harith] at hlt
          rw [hlen2]
          have heq : pos + ((t.filter fun q => !S.contains q).length + 1)
              = pos + 1 + (t.filter fun q => !S.contains q).length := by omega
          rw [heq]
          exact hlt

theorem mapToReducedIndex_eq (numQubits : ℕ) (S : List ℕ) (i : ℕ) :
    mapToReducedIndex numQubits S i
      = bitsToNat (((List.range numQubits).filter fun q => !S.contains q).map
          fun q => Nat.testBit i q) := by
  unfold mapToReducedIndex
  obtain ⟨hfold, _⟩ := mapToReducedIndex_go S i (List.range numQubits) 0 0 (by norm_num)
  rw [hfold]
  simp

theorem mapToReducedIndex_lt (numQubits : ℕ) (S : List ℕ) (i : ℕ) :
    mapToReducedIndex numQubits S i
      < 2 ^ ((List.range numQubits).filter fun q => !S.contains q).length := by
  rw [mapToReducedIndex_eq]
  have := bitsToNat_lt (((List.range numQubits).filter fun q => !S.contains q).map
    fun q => Nat.testBit i q)
  simpa using this

theorem retained_length (n : ℕ) (S : List ℕ) (hnd : S.Nodup) (hsub : ∀ q ∈ S, q < n) :
    ((List.range n).filter fun q => !S.contains q).length = n - S.length := by
  have hperm : List.Perm ((List.range n).filter fun q => S.contains q) S := by
    rw [List.perm_ext_iff_of_nodup (List.Nodup.filter _ (List.nodup_range n)) hnd]
    intro a
    simp only [List.mem_filter, List.mem_range]
    constructor
    · intro hx
      exact List.elem_iff.mp hx.2
    · intro hx
      exact ⟨hsub a hx, List.elem_iff.mpr hx⟩
  have h1 : ((List.range n).filter fun q => S.contains q).length = S.length :=
    hperm.length_eq
  have h2 : ((List.range n).filter fun q => !S.contains q).length
      + ((List.range n).filter fun q => S.contains q).length = n := by
    have hfun : (fun a : ℕ => decide (¬ S.contains a = true)) =
        fun q : ℕ => !S.contains q := by
      funext a
      cases hsa : S.contains a <;> simp [hsa]
    have hsplit := List.length_eq_countP_add_countP (p := fun q : ℕ => S.contains q)
      (l := List.range n)
    rw [List.countP_eq_length_filter, List.countP_eq_length_filter, hfun] at hsplit
    simp only [List.length_range] at hsplit
    omega
  omega

theorem mapToReducedIndex_lt_reduced (n : ℕ) (S : List ℕ) (i : ℕ)
    (hnd : S.Nodup) (hsub : ∀ q ∈ S, q < n) :
    mapToReducedIndex n S i < 2 ^ (n - S.length) := by
  have := mapToReducedIndex_lt n S i
  rw [retained_length n S hnd hsub] at this
  exact this

theorem include_and_map_eq_iff (n : ℕ) (S : List ℕ) (i j : ℕ)
    (hi : i < 2 ^ n) (hj : j < 2 ^ n) :
    (shouldInclude S i j = true ∧ mapToReducedIndex n S i = mapToReducedIndex n S j)
      ↔ i = j := by
  constructor
  · rintro ⟨hinc, hmap⟩
    rw [mapToReducedIndex_eq, mapToReducedIndex_eq] at hmap
    have hlists : (((List.range n).filter fun q => !S.contains q).map
          fun q => Nat.testBit i q)
        = ((List.range n).filter fun q => !S.contains q).map
            fun q => Nat.testBit j q :=
      bitsToNat_inj _ _ (by simp) hmap
    have hretained := List.map_inj_left.mp hlists
    have htraced := (shouldInclude_iff S i j).mp hinc
    apply Nat.eq_of_testBit_eq
    intro k
    by_cases hk : k < n
    · by_cases hks : k ∈ S
      · exact htraced k hks
      · apply hretained
        rw [List.mem_filter, List.mem_range]
        refine ⟨hk, ?_⟩
        simp [hks]
    · have h1 : Nat.testBit i k = false :=
        Nat.testBit_lt_two_pow (lt_of_lt_of_le hi (Nat.pow_le_pow_right (by norm_num) (by omega)))
      have h2 : Nat.testBit j k = false :=
        Nat.testBit_lt_two_pow (lt_of_lt_of_le hj (Nat.pow_le_pow_right (by norm_num) (by omega)))
      rw [h1, h2]
  · intro h
    subst h
    refine ⟨?_, rfl⟩
    rw [shouldInclude_iff]
    intro q _
    rfl

theorem partialTraceStep_apply (densityMatrix : List (List (Cplx F))) (numQubits : ℕ)
    (S : List ℕ) (i j : ℕ) (acc : ℕ → ℕ → Cplx F) (r c : ℕ) :
    partialTraceStep densityMatrix numQubits S i j acc r c
      = acc r c + ptContrib densityMatrix numQubits S i j r c := by
  unfold partialTraceStep ptContrib
  by_cases h1 : shouldInclude S i j = true
  · simp only [if_pos h1]
    by_cases h2 : r = mapToReducedIndex numQubits S i
        ∧ c = mapToReducedIndex numQubits S j
    · have hc3 : shouldInclude S i j = true
          ∧ r = mapToReducedIndex numQubits S i
          ∧ c = mapToReducedIndex numQubits S j := ⟨h1, h2.1, h2.2⟩
      simp only [if_pos h2, if_pos hc3]
      rfl
    · simp only [if_neg h2, if_neg (fun hc : _ ∧ _ ∧ _ => h2 ⟨hc.2.1, hc.2.2⟩)]
      rw [add_zero]
  · simp only [if_neg h1, if_neg (fun hc : _ ∧ _ ∧ _ => h1 hc.1)]
    rw [add_zero]

theorem foldl_ptStep_inner (densityMatrix : List (List (Cplx F))) (numQubits : ℕ)
    (S : List ℕ) (i : ℕ) (l : List ℕ) (acc : ℕ → ℕ → Cplx F) (r c : ℕ) :
    (l.foldl (fun acc j => partialTraceStep densityMatrix numQubits S i j acc) acc) r c
      = acc r c + (l.map fun j => ptContrib densityMatrix numQubits S i j r c).sum := by
  induction l generalizing acc with
  | nil => simp
  | cons a t ih =>
      simp only [List.foldl_cons, List.map_cons, List.sum_cons]
      rw [ih, partialTraceStep_apply, add_assoc]

theorem foldl_ptStep_outer (densityMatrix : List (List (Cplx F))) (numQubits : ℕ)
    (S : List ℕ) (l : List ℕ) (N : ℕ) (acc : ℕ → ℕ → Cplx F) (r c : ℕ) :
    (l.foldl
        (fun acc i =>
          (List.range N).foldl
            (fun acc j => partialTraceStep densityMatrix numQubits S i j acc) acc)
        acc) r c
      = acc r c + (l.map fun i =>
          ((List.range N).map fun j => ptContrib densityMatrix numQubits S i j r c).sum).sum := by
  induction l generalizing acc with
  | nil => simp
  | cons a t ih =>
      simp only [List.foldl_cons, List.map_cons, List.sum_cons]
      rw [ih, foldl_ptStep_inner, add_assoc]

theorem calculatePartialTrace_length (densityMatrix : List (List (Cplx F)))
    (numQubits : ℕ) (S : List ℕ) :
    (calculatePartialTrace densityMatrix numQubits S).length
      = 2 ^ (numQubits - S.length) := by
  simp [calculatePartialTrace]

theorem calculatePartialTrace_row_length (densityMatrix : List (List (Cplx F)))
    (numQubits : ℕ) (S : List ℕ) :
    ∀ row ∈ calculatePartialTrace densityMatrix numQubits S,
      row.length = 2 ^ (numQubits - S.length) := by
  intro row hrow
  unfold calculatePartialTrace at hrow
  simp only [List.mem_map, List.mem_range] at hrow
  obtain ⟨r, _, hrw⟩ := hrow
  rw [← hrw]
  simp

theorem calculatePartialTrace_getD (densityMatrix : List (List (Cplx F)))
    (numQubits : ℕ) (S : List ℕ) (r c : ℕ)
    (hr : r < 2 ^ (numQubits - S.length)) (hc : c < 2 ^ (numQubits - S.length)) :
    ((calculatePartialTrace densityMatrix numQubits S).getD r []).getD c ⟨0, 0⟩
      = ∑ i ∈ Finset.range densityMatrix.length,
          ∑ j ∈ Finset.range densityMatrix.length,
            ptContrib densityMatrix numQubits S i j r c := by
  unfold calculatePartialTrace
  simp only [List.getD_eq_getElem?_getD, List.getElem?_map, List.getElem?_range, hr, hc,
    if_pos, Option.map_some', Option.getD_some]
  rw [foldl_ptStep_outer, list_range_map_sum]
  have hinner : ∀ i ∈ Finset.range densityMatrix.length,
      ((List.range densityMatrix.length).map
          fun j => ptContrib densityMatrix numQubits S i j r c).sum
        = ∑ j ∈ Finset.range densityMatrix.length,
            ptContrib densityMatrix numQubits S i j r c :=
    fun i _ => list_range_map_sum _ _
  rw [Finset.sum_congr rfl hinner]
  simp only [← Cplx.zero_def, zero_add]

theorem calculatePartialTrace_trace {F : Type} [CommRing F]
    (densityMatrix : List (List (Cplx F))) (n : ℕ) (S : List ℕ)
    (hdim : densityMatrix.length = 2 ^ n) (hnd : S.Nodup) (hsub : ∀ q ∈ S, q < n) :
    matrixTrace (calculatePartialTrace densityMatrix n S) = matrixTrace densityMatrix := by
  unfold matrixTrace
  rw [calculatePartialTrace_length]
  have hstep1 : ∀ r ∈ Finset.range (2 ^ (n - S.length)),
      ((calculatePartialTrace densityMatrix n S).getD r []).getD r ⟨0, 0⟩
        = ∑ i ∈ Finset.range densityMatrix.length,
            ∑ j ∈ Finset.range densityMatrix.length,
              ptContrib densityMatrix n S i j r r := fun r hr =>
    calculatePartialTrace_getD densityMatrix n S r r
      (Finset.mem_range.mp hr) (Finset.mem_range.mp hr)
  rw [Finset.sum_congr rfl hstep1, Finset.sum_comm]
  have hswap : ∀ i ∈ Finset.range densityMatrix.length,
      ∑ r ∈ Finset.range (2 ^ (n - S.length)),
          ∑ j ∈ Finset.range densityMatrix.length, ptContrib densityMatrix n S i j r r
        = ∑ j ∈ Finset.range densityMatrix.length,
            ∑ r ∈ Finset.range (2 ^ (n - S.length)),
              ptContrib densityMatrix n S i j r r := fun i _ => Finset.sum_comm
  rw [Finset.sum_congr rfl hswap]
  have hcollapse : ∀ i ∈ Finset.range densityMatrix.length,
      ∀ j ∈ Finset.range densityMatrix.length,
        ∑ r ∈ Finset.range (2 ^ (n - S.length)), ptContrib densityMatrix n S i j r r
          = if i = j then (densityMatrix.getD i []).getD j ⟨0, 0⟩ else 0 := by
    intro i hi j hj
    have hi2 : i < 2 ^ n := by rw [← hdim]; exact Finset.mem_range.mp hi
    have hj2 : j < 2 ^ n := by rw [← hdim]; exact Finset.mem_range.mp hj
    by_cases hij : i = j
    · subst hij
      rw [if_pos rfl]
      have hincl : shouldInclude S i i = true := by
        rw [shouldInclude_iff]
        intro q _
        rfl
      have hpt : ∀ r ∈ Finset.range (2 ^ (n - S.length)),
          ptContrib densityMatrix n S i i r r
            = if r = mapToReducedIndex n S i
              then (densityMatrix.getD i []).getD i ⟨0, 0⟩ else 0 := by
        intro r _
        unfold ptContrib
        by_cases hrm : r = mapToReducedIndex n S i
        · rw [if_pos ⟨hincl, hrm, hrm⟩, if_pos hrm]
        · rw [if_neg (fun hcn : _ ∧ _ ∧ _ => hrm hcn.2.1), if_neg hrm]
      rw [Finset.sum_congr rfl hpt,
        Finset.sum_ite_eq' (Finset.range (2 ^ (n - S.length))) (mapToReducedIndex n S i),
        if_pos (Finset.mem_range.mpr (mapToReducedIndex_lt_reduced n S i hnd hsub))]
    · rw [if_neg hij]
      apply Finset.sum_eq_zero
      intro r _
      unfold ptContrib
      rw [if_neg]
      rintro ⟨hincl, hri, hrj⟩
      exact hij ((include_and_map_eq_iff n S i j hi2 hj2).mp
        ⟨hincl, by rw [← hri, ← hrj]⟩)
  rw [Finset.sum_congr rfl
    (fun i hi => Finset.sum_congr rfl (fun j hj => hcollapse i hi j hj))]
  have hdiag : ∀ i ∈ Finset.range densityMatrix.length,
      (∑ j ∈ Finset.range densityMatrix.length,
          if i = j then (densityMatrix.getD i []).getD j ⟨0, 0⟩ else 0)
        = (densityMatrix.getD i []).getD i ⟨0, 0⟩ := by
    intro i hi
    rw [Finset.sum_ite_eq (Finset.range densityMatrix.length) i
      (fun j => (densityMatrix.getD i []).getD j ⟨0, 0⟩), if_pos hi]
  rw [Finset.sum_congr rfl hdiag]

/-- C7: for an `n`-qubit density matrix and a non-empty proper, duplicate-free
subset `S` of the qubits, `calculatePartialTrace` returns a matrix of
dimension `2 ^ (n − |S|)` whose trace equals the trace of the input exactly;
in particular when the input has trace 1 the reduced trace is 1 (within 1e-9,
with zero imaginary part). -/
theorem c7_partialTrace_trace_preserving (densityMatrix : List (List (Cplx ℝ)))
    (n : ℕ) (S : List ℕ) (h1 : densityMatrix.length = 2 ^ n) (h2 : S.Nodup)
    (h3 : ∀ q ∈ S, q < n) (h4 : S ≠ []) (h5 : S.length < n) :
    (calculatePartialTrace densityMatrix n S).length = 2 ^ (n - S.length)
    ∧ (∀ row ∈ calculatePartialTrace densityMatrix n S,
        row.length = 2 ^ (n - S.length))
    ∧ matrixTrace (calculatePartialTrace densityMatrix n S) = matrixTrace densityMatrix
    ∧ (matrixTrace densityMatrix = ⟨1, 0⟩ →
        |(matrixTrace (calculatePartialTrace densityMatrix n S)).re - 1| ≤ 1e-9
        ∧ (matrixTrace (calculatePartialTrace densityMatrix n S)).im = 0) := by
  refine ⟨calculatePartialTrace_length densityMatrix n S,
    calculatePartialTrace_row_length densityMatrix n S,
    calculatePartialTrace_trace densityMatrix n S h1 h2 h3, ?_⟩
  intro htr
  rw [calculatePartialTrace_trace densityMatrix n S h1 h2 h3, htr]
  norm_num

/-- C7 witness: the two-qubit pure density matrix |00⟩⟨00| with qubit 0 traced
out. -/
theorem c7_partialTrace_trace_preserving_witness :
    (calculatePartialTrace c7WitnessMatrix 2 [0]).length = 2 ^ (2 - [0].length)
    ∧ (∀ row ∈ calculatePartialTrace c7WitnessMatrix 2 [0],
        row.length = 2 ^ (2 - [0].length))
    ∧ matrixTrace (calculatePartialTrace c7WitnessMatrix 2 [0])
        = matrixTrace c7WitnessMatrix
    ∧ (matrixTrace c7WitnessMatrix = ⟨1, 0⟩ →
        |(matrixTrace (calculatePartialTrace c7WitnessMatrix 2 [0])).re - 1| ≤ 1e-9
        ∧ (matrixTrace (calculatePartialTrace c7WitnessMatrix 2 [0])).im = 0) :=
  c7_partialTrace_trace_preserving c7WitnessMatrix 2 [0] rfl (by simp)
    (by intro q hq; simp at hq; omega) (by simp) (by norm_num)

theorem mapToReducedIndex_empty (n i : ℕ) (hi : i < 2 ^ n) :
    mapToReducedIndex n [] i = i := by
  rw [mapToReducedIndex_eq]
  have hfil : ((List.range n).filter fun q => !List.contains ([] : List ℕ) q)
      = List.range n := by
    apply List.filter_eq_self.mpr
    intro a _
    rfl
  rw [hfil]
  exact bitsToNat_testBit_range n i hi

theorem shouldInclude_empty (i j : ℕ) : shouldInclude ([] : List ℕ) i j = true := by
  rw [shouldInclude_iff]
  intro q hq
  simp at hq

/-- C10: tracing out the empty qubit subset is the identity map — the reduced
matrix has the same dimension as the input and is entrywise equal to it. -/
theorem c10_partialTrace_empty_identity {F : Type} [CommRing F]
    (densityMatrix : List (List (Cplx F))) (n : ℕ)
    (h1 : densityMatrix.length = 2 ^ n)
    (h2 : ∀ row ∈ densityMatrix, row.length = 2 ^ n) :
    calculatePartialTrace densityMatrix n [] = densityMatrix := by
  have hentry : ∀ r c : ℕ, r < 2 ^ n → c < 2 ^ n →
      ((calculatePartialTrace densityMatrix n []).getD r []).getD c ⟨0, 0⟩
        = (densityMatrix.getD r []).getD c ⟨0, 0⟩ := by
    intro r c hr hc
    rw [calculatePartialTrace_getD densityMatrix n [] r c (by simpa using hr)
      (by simpa using hc)]
    have houter : ∀ i ∈ Finset.range densityMatrix.length,
        (∑ j ∈ Finset.range densityMatrix.length, ptContrib densityMatrix n [] i j r c)
          = if i = r then (densityMatrix.getD i []).getD c ⟨0, 0⟩ else 0 := by
      intro i hi
      have hi2 : i < 2 ^ n := by rw [← h1]; exact Finset.mem_range.mp hi
      by_cases hir : i = r
      · rw [if_pos hir, ← hir]
        have hterm : ∀ j ∈ Finset.range densityMatrix.length,
            ptContrib densityMatrix n [] i j i c
              = if c = j then (densityMatrix.getD i []).getD j ⟨0, 0⟩ else 0 := by
          intro j hj
          have hj2 : j < 2 ^ n := by rw [← h1]; exact Finset.mem_range.mp hj
          unfold ptContrib
          by_cases hcj : c = j
          · rw [if_pos ⟨shouldInclude_empty i j, (mapToReducedIndex_empty n i hi2).symm,
              by rw [mapToReducedIndex_empty n j hj2]; exact hcj⟩, if_pos hcj]
          · rw [if_neg, if_neg hcj]
            rintro ⟨_, _, hcm⟩
            rw [mapToReducedIndex_empty n j hj2] at hcm
            exact hcj hcm
        rw [Finset.sum_congr rfl hterm,
          Finset.sum_ite_eq (Finset.range densityMatrix.length) c
            (fun j => (densityMatrix.getD i []).getD j ⟨0, 0⟩),
          if_pos (Finset.mem_range.mpr (by rw [h1]; exact hc))]
      · rw [if_neg hir]
        apply Finset.sum_eq_zero
        intro j _
        unfold ptContrib
        rw [if_neg]
        rintro ⟨_, hrm, _⟩
        rw [mapToReducedIndex_empty n i hi2] at hrm
        exact hir hrm.symm
    rw [Finset.sum_congr rfl houter,
      Finset.sum_ite_eq' (Finset.range densityMatrix.length) r
        (fun i => (densityMatrix.getD i []).getD c ⟨0, 0⟩),
      if_pos (Finset.mem_range.mpr (by rw [h1]; exact hr))]
  have hlen : (calculatePartialTrace densityMatrix n []).length = densityMatrix.length := by
    rw [calculatePartialTrace_length, h1]
    simp
  apply List.ext_getElem hlen
  intro r hr1 hr2
  have hrn : r < 2 ^ n := by rw [← h1]; exact hr2
  have hrowlen : (calculatePartialTrace densityMatrix n [])[r].length
      = densityMatrix[r].length := by
    rw [calculatePartialTrace_row_length densityMatrix n [] _ (List.getElem_mem hr1),
      h2 densityMatrix[r] (List.getElem_mem hr2)]
    simp
  apply List.ext_getElem hrowlen
  intro c hc1 hc2
  have hcn : c < 2 ^ n := by
    rw [← h2 densityMatrix[r] (List.getElem_mem hr2)]
    exact hc2
  have e1 : ((calculatePartialTrace densityMatrix n []).getD r []).getD c ⟨0, 0⟩
      = (calculatePartialTrace densityMatrix n [])[r][c] := by
    rw [List.getD_eq_getElem (calculatePartialTrace densityMatrix n []) [] hr1,
      List.getD_eq_getElem _ ⟨0, 0⟩ hc1]
  have e2 : (densityMatrix.getD r []).getD c ⟨0, 0⟩ = densityMatrix[r][c] := by
    rw [List.getD_eq_getElem densityMatrix [] hr2, List.getD_eq_getElem _ ⟨0, 0⟩ hc2]
  rw [← e1, ← e2]
  exact hentry r c hrn hcn

/-- C10 witness: a concrete 2×2 one-qubit density matrix with the empty
trace-out list. -/
theorem c10_partialTrace_empty_identity_witness :
    calculatePartialTrace ([[⟨1, 0⟩, ⟨0, 0⟩], [⟨0, 0⟩, ⟨0, 0⟩]] : List (List (Cplx ℤ)))
        1 []
      = [[⟨1, 0⟩, ⟨0, 0⟩], [⟨0, 0⟩, ⟨0, 0⟩]] :=
  c10_partialTrace_empty_identity
    ([[⟨1, 0⟩, ⟨0, 0⟩], [⟨0, 0⟩, ⟨0, 0⟩]] : List (List (Cplx ℤ))) 1 rfl (by decide)

theorem applyNamedGate_unknown (numQubits : ℕ) (st : List (Cplx ℝ)) (qubit : ℕ)
    (g : Gate) (hg : g.id ∉ (["h", "x", "y", "z", "s", "t"] : List String)) :
    applyNamedGate numQubits st qubit g
      = (st, if g.id = "measure" then "Measurement on qubit " ++ toString qubit
             else g.name ++ " gate to qubit " ++ toString qubit) := by
  have h1 : ¬ g.id = "h" := fun e => hg (by rw [e]; simp)
  have h2 : ¬ g.id = "x" := fun e => hg (by rw [e]; simp)
  have h3 : ¬ g.id = "y" := fun e => hg (by rw [e]; simp)
  have h4 : ¬ g.id = "z" := fun e => hg (by rw [e]; simp)
  have h5 : ¬ g.id = "s" := fun e => hg (by rw [e]; simp)
  have h6 : ¬ g.id = "t" := fun e => hg (by rw [e]; simp)
  unfold applyNamedGate
  rw [if_neg h1, if_neg h2, if_neg h3, if_neg h4, if_neg h5, if_neg h6]
  by_cases hm : g.id = "measure"
  · rw [if_pos hm, if_pos hm]
  · rw [if_neg hm, if_neg hm]

theorem applyColumn_go_description_length (numQubits : ℕ) :
    ∀ (gates : List (ℕ × Gate)) (st : List (Cplx ℝ)) (ds : List String),
      (gates.foldl
          (fun acc rg =>
            ((applyNamedGate numQubits acc.1 rg.1 rg.2).1,
              acc.2 ++ [(applyNamedGate numQubits acc.1 rg.1 rg.2).2]))
          (st, ds)).2.length = ds.length + gates.length := by
  intro gates
  induction gates with
  | nil => intro st ds; simp
  | cons a t ih =>
      intro st ds
      rw [List.foldl_cons]
      rw [ih]
      simp
      omega

theorem applyColumn_description_length (numQubits : ℕ) (st : List (Cplx ℝ))
    (gates : List (ℕ × Gate)) :
    (applyColumn numQubits st gates).2.length = gates.length := by
  unfold applyColumn
  rw [applyColumn_go_description_length]
  simp

theorem applyColumn_go_unknown (numQubits : ℕ) :
    ∀ (gates : List (ℕ × Gate)),
      (∀ rg ∈ gates, rg.2.id ∉ (["h", "x", "y", "z", "s", "t"] : List String)) →
      ∀ (st : List (Cplx ℝ)) (ds : List String),
        (gates.foldl
            (fun acc rg =>
              ((applyNamedGate numQubits acc.1 rg.1 rg.2).1,
                acc.2 ++ [(applyNamedGate numQubits acc.1 rg.1 rg.2).2]))
            (st, ds)).1 = st := by
  intro gates
  induction gates with
  | nil => intro _ st ds; rfl
  | cons a t ih =>
      intro hmem st ds
      rw [List.foldl_cons]
      have ha := applyNamedGate_unknown numQubits st a.1 a.2
        (hmem a (List.mem_cons_self a t))
      rw [ha]
      exact ih (fun rg hrg => hmem rg (List.mem_cons_of_mem a hrg)) st _

/-- C5: during circuit evaluation, a gate placement whose id is not one of
h, x, y, z, s, t — including `measure`, the multi-qubit ids and unrecognized
ids — leaves every amplitude of the state unchanged while still contributing
its description; a whole column of such gates returns the state untouched
with exactly one recorded description per gate. -/
theorem c5_unknownGate_frame (numQubits : ℕ) (st : List (Cplx ℝ)) (qubit : ℕ)
    (g : Gate) (hg : g.id ∉ (["h", "x", "y", "z", "s", "t"] : List String)) :
    applyNamedGate numQubits st qubit g
        = (st, if g.id = "measure" then "Measurement on qubit " ++ toString qubit
               else g.name ++ " gate to qubit " ++ toString qubit)
    ∧ ∀ gates : List (ℕ × Gate),
        (∀ rg ∈ gates, rg.2.id ∉ (["h", "x", "y", "z", "s", "t"] : List String)) →
        (applyColumn numQubits st gates).1 = st
        ∧ (applyColumn numQubits st gates).2.length = gates.length := by
  refine ⟨applyNamedGate_unknown numQubits st qubit g hg, ?_⟩
  intro gates hmem
  exact ⟨by unfold applyColumn; exact applyColumn_go_unknown numQubits gates hmem st [],
    applyColumn_description_length numQubits st gates⟩

/-- C5 witness: a `measure` placement on a concrete one-qubit state. -/
theorem c5_unknownGate_frame_witness :
    applyNamedGate 1 ([⟨1, 0⟩, ⟨0, 0⟩] : List (Cplx ℝ)) 0 ⟨"measure", "M", false, false⟩
        = (([⟨1, 0⟩, ⟨0, 0⟩] : List (Cplx ℝ)),
           if (⟨"measure", "M", false, false⟩ : Gate).id = "measure"
           then "Measurement on qubit " ++ toString 0
           else (⟨"measure", "M", false, false⟩ : Gate).name ++ " gate to qubit " ++ toString 0)
    ∧ ∀ gates : List (ℕ × Gate),
        (∀ rg ∈ gates, rg.2.id ∉ (["h", "x", "y", "z", "s", "t"] : List String)) →
        (applyColumn 1 ([⟨1, 0⟩, ⟨0, 0⟩] : List (Cplx ℝ)) gates).1
            = ([⟨1, 0⟩, ⟨0, 0⟩] : List (Cplx ℝ))
        ∧ (applyColumn 1 ([⟨1, 0⟩, ⟨0, 0⟩] : List (Cplx ℝ)) gates).2.length
            = gates.length :=
  c5_unknownGate_frame 1 ([⟨1, 0⟩, ⟨0, 0⟩] : List (Cplx ℝ)) 0
    ⟨"measure", "M", false, false⟩ (by decide)

/-- C9 (amended): the evaluator's collection loop takes every non-null cell
of the column regardless of control/target tags — a target-tagged cell is
collected and processed as an independent gate application of its own,
receiving its own description entry (its multi-qubit id falls through to the
default branch, so no amplitudes change). -/
theorem c9_all_cells_collected (circuit : List (List Cell)) (numQubits col row : ℕ)
    (g : Gate) (hrow : row < numQubits)
    (hcell : (getCell circuit row col).gate = some g) :
    (row, g) ∈ gatesInColumn circuit numQubits col
    ∧ ∀ (st : List (Cplx ℝ)) (gates : List (ℕ × Gate)),
        (applyColumn numQubits st gates).2.length = gates.length := by
  constructor
  · unfold gatesInColumn
    rw [List.mem_filterMap]
    exact ⟨row, List.mem_range.mpr hrow, by rw [hcell]; rfl⟩
  · intro st gates
    exact applyColumn_description_length numQubits st gates

/-- C9 witness: a target-tagged CX cell in a one-qubit, one-column circuit. -/
theorem c9_all_cells_collected_witness :
    (0, (⟨"cx", "CX", false, true⟩ : Gate))
        ∈ gatesInColumn [[⟨some ⟨"cx", "CX", false, true⟩⟩]] 1 0
    ∧ ∀ (st : List (Cplx ℝ)) (gates : List (ℕ × Gate)),
        (applyColumn 1 st gates).2.length = gates.length :=
  c9_all_cells_collected [[⟨some ⟨"cx", "CX", false, true⟩⟩]] 1 0 0
    ⟨"cx", "CX", false, true⟩ (by decide) rfl

/-- C9 counterexample: in this concrete circuit the only cell is tagged as a
target side, yet the collection loop returns it and the column evaluation
emits an independent description entry for it — the claim that target-side
cells are never processed independently is false. -/
theorem c9_claim_counterexample :
    (⟨"cx", "CX", false, true⟩ : Gate).target = true
    ∧ gatesInColumn [[⟨some ⟨"cx", "CX", false, true⟩⟩]] 1 0
        = [(0, ⟨"cx", "CX", false, true⟩)]
    ∧ (applyColumn 1 ([] : List (Cplx ℝ))
          (gatesInColumn [[⟨some ⟨"cx", "CX", false, true⟩⟩]] 1 0)).2
        = ["CX gate to qubit 0"] := by
  refine ⟨rfl, rfl, ?_⟩
  rfl

theorem columnStates_eq_head_tail (numQubits : ℕ) (circuit : List (List Cell))
    (st : List (Cplx ℝ)) (cols : List ℕ) :
    columnStates numQubits circuit st cols
      = st :: (columnStates numQubits circuit st cols).tail := by
  cases cols <;> rfl

theorem columnStates_length (numQubits : ℕ) (circuit : List (List Cell)) :
    ∀ (cols : List ℕ) (st : List (Cplx ℝ)),
      (columnStates numQubits circuit st cols).length = cols.length + 1 := by
  intro cols
  induction cols with
  | nil => intro st; rfl
  | cons c cs ih => intro st; simp [columnStates, ih]

theorem foldl_filter_of_id {α β : Type} (g : β → α → β) (p : α → Bool)
    (hid : ∀ (b : β) (x : α), p x = false → g b x = b) :
    ∀ (l : List α) (a : β), l.foldl g a = (l.filter p).foldl g a := by
  intro l
  induction l with
  | nil => intro a; rfl
  | cons x t ih =>
      intro a
      cases hpx : p x with
      | false =>
          rw [List.foldl_cons, hid a x hpx, ih a, List.filter_cons, hpx,
            if_neg Bool.false_ne_true]
      | true =>
          rw [List.foldl_cons, ih (g a x), List.filter_cons, hpx, if_pos rfl,
            List.foldl_cons]

theorem simStepBody_of_nonEmpty (numQubits : ℕ) (circuit : List (List Cell))
    (acc : List SimulationStep) (c : ℕ)
    (hc : (gatesInColumn circuit numQubits c).isEmpty = false) :
    simStepBody numQubits circuit acc c
      = acc ++ [⟨acc.length,
          (applyColumn numQubits ((acc.getLastD ⟨0, [], ""⟩).state)
            (gatesInColumn circuit numQubits c)).1,
          "Applied " ++ String.intercalate (", ")
            (applyColumn numQubits ((acc.getLastD ⟨0, [], ""⟩).state)
              (gatesInColumn circuit numQubits c)).2⟩] := by
  unfold simStepBody
  rw [if_neg (by rw [hc]; exact Bool.false_ne_true)]

theorem foldl_simStepBody_append (numQubits : ℕ) (circuit : List (List Cell)) :
    ∀ (cols : List ℕ) (acc : List SimulationStep),
      ∃ rest, cols.foldl (simStepBody numQubits circuit) acc = acc ++ rest := by
  intro cols
  induction cols with
  | nil =>
      intro acc
      exact ⟨[], by simp⟩
  | cons c cs ih =>
      intro acc
      rw [List.foldl_cons]
      cases hc : (gatesInColumn circuit numQubits c).isEmpty with
      | true =>
          have hskip : simStepBody numQubits circuit acc c = acc := by
            unfold simStepBody
            rw [if_pos hc]
          rw [hskip]
          exact ih acc
      | false =>
          rw [simStepBody_of_nonEmpty numQubits circuit acc c hc]
          obtain ⟨rest, hrest⟩ := ih (acc ++ [_])
          rw [hrest, List.append_assoc]
          exact ⟨_, rfl⟩

theorem foldl_simStepBody_states (numQubits : ℕ) (circuit : List (List Cell)) :
    ∀ (cols : List ℕ) (acc : List SimulationStep), acc ≠ [] →
      (∀ c ∈ cols, (gatesInColumn circuit numQubits c).isEmpty = false) →
      (cols.foldl (simStepBody numQubits circuit) acc).map (fun s => s.state)
        = acc.map (fun s => s.state)
          ++ (columnStates numQubits circuit
              ((acc.getLastD ⟨0, [], ""⟩).state) cols).tail := by
  intro cols
  induction cols with
  | nil =>
      intro acc _ _
      simp [columnStates]
  | cons c cs ih =>
      intro acc hne hcols
      have hc := hcols c (List.mem_cons_self c cs)
      rw [List.foldl_cons, simStepBody_of_nonEmpty numQubits circuit acc c hc,
        ih (acc ++ [_]) (by simp) (fun x hx => hcols x (List.mem_cons_of_mem c hx)),
        List.getLastD_concat, List.map_append, List.append_assoc]
      congr 1
      simp only [List.map_cons, List.map_nil]
      rw [show (columnStates numQubits circuit ((acc.getLastD ⟨0, [], ""⟩).state)
          (c :: cs)).tail
        = columnStates numQubits circuit
            ((applyColumn numQubits ((acc.getLastD ⟨0, [], ""⟩).state)
              (gatesInColumn circuit numQubits c)).1) cs from rfl]
      rw [columnStates_eq_head_tail numQubits circuit _ cs]
      rfl

theorem nonEmptyColumns_eq_nil (circuit : List (List Cell)) (numQubits maxDepth : ℕ)
    (h : hasAnyGates circuit numQubits maxDepth = false) :
    nonEmptyColumns circuit numQubits maxDepth = [] := by
  unfold nonEmptyColumns
  rw [List.filter_eq_nil_iff]
  intro col hcol
  unfold hasAnyGates at h
  rw [List.any_eq_false] at h
  have hcolfalse := h col hcol
  rw [Bool.not_eq_true, List.any_eq_false] at hcolfalse
  have hnil : gatesInColumn circuit numQubits col = [] := by
    unfold gatesInColumn
    rw [List.filterMap_eq_nil_iff]
    intro row hrow
    have hnotsome := hcolfalse row hrow
    have hnone : (getCell circuit row col).gate = none := by
      cases hg : (getCell circuit row col).gate with
      | none => rfl
      | some g =>
          exfalso
          apply hnotsome
          rw [hg]
          rfl
    rw [hnone]
    rfl
  rw [hnil]
  simp

/-- C4: the evaluator's history starts with step 0 holding the initial state,
gains exactly one step per gate-bearing column in left-to-right order (each
new state obtained from the previous one by that column's gates), emits
nothing for empty columns, and a circuit with no gates anywhere yields a
one-step history equal to the initial state. -/
theorem c4_history_shape (numQubits maxDepth : ℕ) (circuit : List (List Cell))
    (initialStates : List QubitInit) (init : List (Cplx ℝ))
    (hinit : createInitialState numQubits initialStates = some init) :
    ∃ steps : List SimulationStep,
      simulateCircuit numQubits maxDepth circuit initialStates = some steps
      ∧ steps.head? = some ⟨0, init, "Initial state"⟩
      ∧ steps.length = 1 + (nonEmptyColumns circuit numQubits maxDepth).length
      ∧ steps.map (fun s => s.state)
          = columnStates numQubits circuit init
              (nonEmptyColumns circuit numQubits maxDepth)
      ∧ (hasAnyGates circuit numQubits maxDepth = false
          → steps = [⟨0, init, "Initial state"⟩]) := by
  unfold simulateCircuit
  rw [hinit]
  simp only [Option.map_some']
  by_cases hany : hasAnyGates circuit numQubits maxDepth = false
  · refine ⟨[⟨0, init, "Initial state"⟩], ?_, rfl, ?_, ?_, fun _ => rfl⟩
    · rw [if_pos hany]
    · rw [nonEmptyColumns_eq_nil circuit numQubits maxDepth hany]
      rfl
    · rw [nonEmptyColumns_eq_nil circuit numQubits maxDepth hany]
      rfl
  · have hcolsne : ∀ c ∈ nonEmptyColumns circuit numQubits maxDepth,
        (gatesInColumn circuit numQubits c).isEmpty = false := by
      intro c hcmem
      unfold nonEmptyColumns at hcmem
      rw [List.mem_filter] at hcmem
      simpa using hcmem.2
    have hswitch : (List.range maxDepth).foldl (simStepBody numQubits circuit)
          [⟨0, init, "Initial state"⟩]
        = (nonEmptyColumns circuit numQubits maxDepth).foldl
            (simStepBody numQubits circuit) [⟨0, init, "Initial state"⟩] := by
      unfold nonEmptyColumns
      apply foldl_filter_of_id
      intro b x hx
      have hxe : (gatesInColumn circuit numQubits x).isEmpty = true := by
        simpa using hx
      unfold simStepBody
      rw [if_pos hxe]
    refine ⟨(nonEmptyColumns circuit numQubits maxDepth).foldl
        (simStepBody numQubits circuit) [⟨0, init, "Initial state"⟩],
      ?_, ?_, ?_, ?_, fun hcontra => absurd hcontra hany⟩
    · rw [if_neg hany, hswitch]
    · obtain ⟨rest, hrest⟩ := foldl_simStepBody_append numQubits circuit
        (nonEmptyColumns circuit numQubits maxDepth) [⟨0, init, "Initial state"⟩]
      rw [hrest]
      rfl
    · have hmap := foldl_simStepBody_states numQubits circuit
        (nonEmptyColumns circuit numQubits maxDepth) [⟨0, init, "Initial state"⟩]
        (by simp) hcolsne
      have hlen := congrArg List.length hmap
      rw [List.length_map, List.length_append, List.length_map, List.length_tail,
        columnStates_length] at hlen
      simp at hlen
      omega
    · have hmap := foldl_simStepBody_states numQubits circuit
        (nonEmptyColumns circuit numQubits maxDepth) [⟨0, init, "Initial state"⟩]
        (by simp) hcolsne
      rw [hmap, columnStates_eq_head_tail numQubits circuit init
        (nonEmptyColumns circuit numQubits maxDepth)]
      rfl

/-- C4 witness: one qubit, depth 0, the empty circuit grid. -/
theorem c4_history_shape_witness :
    ∃ steps : List SimulationStep,
      simulateCircuit 1 0 [] [⟨"0"⟩] = some steps
      ∧ steps.head? = some ⟨0, [⟨1, 0⟩, ⟨0, 0⟩], "Initial state"⟩
      ∧ steps.length = 1 + (nonEmptyColumns [] 1 0).length
      ∧ steps.map (fun s => s.state)
          = columnStates 1 [] [⟨1, 0⟩, ⟨0, 0⟩] (nonEmptyColumns [] 1 0)
      ∧ (hasAnyGates [] 1 0 = false
          → steps = [⟨0, [⟨1, 0⟩, ⟨0, 0⟩], "Initial state"⟩]) :=
  c4_history_shape 1 0 [] [⟨"0"⟩] [⟨1, 0⟩, ⟨0, 0⟩] rfl

end QuantumSim

